import Mathlib

/-!
Verification development for the MyDapytains incremental catalog builder
(`tests/generate_collections.py`, `tests/core.py`, `tests/extract_metadata.py`).
The Python sources are shallowly embedded: pure helpers become Lean functions,
the filesystem becomes an explicit path-set model, and the `main` build pass
becomes a pure function from its inputs (configuration hash, persisted build
state, source-file listing) to the list of filesystem events it performs.
-/

/-! ## Identifier normalizer (`strip_accents`, `clean_id`, `clean_id_with_strip`)

Source: `tests/generate_collections.py` lines 46-53 (identical in
`tests/core.py` lines 51-60).
-/

/-- Models Python `unicodedata.normalize('NFD', ·)` character decomposition for
the Latin letters this development evaluates (the source delegates to Python's
full Unicode tables); characters without a listed decomposition are returned
unchanged. U+0301 is the combining acute accent. -/
def nfdDecompose (c : Char) : List Char :=
  if c = 'É' then ['E', '́']
  else if c = 'é' then ['e', '́']
  else if c = 'È' then ['E', '̀']
  else if c = 'è' then ['e', '̀']
  else if c = 'Â' then ['A', '̂']
  else if c = 'â' then ['a', '̂']
  else if c = 'ü' then ['u', '̈']
  else if c = 'ç' then ['c', '̧']
  else [c]

/-- Models the `unicodedata.category(c) != 'Mn'` test of `strip_accents`: the
combining diacritical marks block U+0300-U+036F together with U+0327 covers
every mark produced by `nfdDecompose`. -/
def combiningMark (c : Char) : Bool :=
  (0x300 ≤ c.val && c.val ≤ 0x36F) || c.val = 0x327

/-- `strip_accents(text)`: NFD-decompose and drop combining marks
(`generate_collections.py` line 46-47). -/
def strip_accents (text : String) : String :=
  String.mk (((text.data.map nfdDecompose).flatten).filter (fun c => !combiningMark c))

/-- Models Python regex `\w` (a Unicode word character) on the character sets
this development evaluates: ASCII alphanumerics and underscore, plus the
Latin-1 letters (the source delegates to Python's full Unicode tables). -/
def pyWordChar (c : Char) : Bool :=
  c.isAlphanum || c = '_' ||
  (0xC0 ≤ c.val && c.val ≤ 0xFF && c.val ≠ 0xD7 && c.val ≠ 0xF7) ||
  c.val = 0xAA || c.val = 0xB5 || c.val = 0xBA

/-- Models Python `str.strip()`: drop whitespace from both ends (the source
only strips ASCII whitespace in the inputs exercised here). -/
def pyTrim (s : String) : String :=
  String.mk (((s.data.dropWhile Char.isWhitespace).reverse.dropWhile
    Char.isWhitespace).reverse)

/-- Models Python `str.lower()` on the ASCII range (after `strip_accents` the
strings reaching `.lower()` in the witnesses are ASCII). -/
def pyLower (s : String) : String := String.mk (s.data.map Char.toLower)

/-- Models `re.sub(r"[^\w\-]", "_", s)`: the pattern matches exactly one
character, so the substitution replaces each character outside the class
(word character or hyphen) with one underscore. -/
def reSubUnderscore (s : String) : String :=
  String.mk (s.data.map (fun c => if pyWordChar c || c = '-' then c else '_'))

/-- `clean_id(text)`: `re.sub(r"[^\w\-]", "_", text.strip().lower())`
(`generate_collections.py` lines 49-50). -/
def clean_id (text : String) : String :=
  reSubUnderscore (pyLower (pyTrim text))

/-- `clean_id_with_strip(text)`: `clean_id(strip_accents(text)) if text else
"unknown"` (`generate_collections.py` lines 52-53); the empty string is the
falsy case. -/
def clean_id_with_strip (text : String) : String :=
  if text = "" then "unknown" else clean_id (strip_accents text)

/-- C3 counterexample: on the spec's own example input the normalizer emits one
underscore per offending character — the three-space run becomes three
underscores and the two exclamation marks become two, so the claimed
run-collapsing (which would give "emile_durkheim_") does not happen. -/
theorem C3_counterexample_no_run_collapse :
    clean_id_with_strip "Émile   Durkheim!!" = "emile___durkheim__" ∧
    ¬ ("emile___durkheim__" = "emile_durkheim_") := by
  constructor
  · decide
  · decide

/-- C3 (amended): `clean_id_with_strip` trims surrounding whitespace, strips
diacritics, lowercases, and replaces each character outside the word-class
(Python `\w` plus hyphen) with one underscore per character — so the output of
`clean_id` has exactly the length of the trimmed input and is the
character-by-character image of it; empty input yields the literal "unknown";
and the function is deterministic (equal inputs give equal slugs). -/
theorem C3_normalizer_per_char (s t : String) :
    clean_id_with_strip "" = "unknown" ∧
    (s = t → clean_id_with_strip s = clean_id_with_strip t) ∧
    (clean_id s).length = (pyTrim s).length ∧
    (clean_id s).data =
      (pyTrim s).data.map (fun c =>
        let c' := c.toLower
        if pyWordChar c' || c' = '-' then c' else '_') := by
  have hdata : (clean_id s).data =
      (pyTrim s).data.map (fun c =>
        let c' := c.toLower
        if pyWordChar c' || c' = '-' then c' else '_') := by
    show (String.mk (((pyTrim s).data.map Char.toLower).map _)).data = _
    rw [List.map_map]
    rfl
  refine ⟨rfl, fun h => by rw [h], ?_, hdata⟩
  show ((clean_id s).data).length = ((pyTrim s).data).length
  rw [hdata, List.length_map]

/-- C3 witness: the amended theorem applied at concrete inputs. -/
theorem C3_normalizer_per_char_witness :
    clean_id_with_strip "" = "unknown" ∧
    (clean_id "a  b").length = (pyTrim "a  b").length :=
  ⟨(C3_normalizer_per_char "x" "x").1, (C3_normalizer_per_char "a  b" "a  b").2.2.1⟩

/-! ## Leaf filename choice (`unique_filename`)

Sources: `tests/generate_collections.py` lines 58-65 (no exclusion, mutates the
name set) and `tests/core.py` lines 67-77 (takes an `exclude` argument); the
leaf-level caller is `recursive_group` (`generate_collections.py` lines
251-263, `core.py` lines 283-300).
-/

/-- Little-endian decimal digits of `n`, with explicit fuel (`fuel = n`
suffices because the argument is divided by ten each step). -/
def natDigitsAux : Nat → Nat → List Nat
  | 0, _ => []
  | fuel + 1, n => if n = 0 then [] else (n % 10) :: natDigitsAux fuel (n / 10)

/-- Little-endian decimal digits of `n` (empty for zero). -/
def natDecimal (n : Nat) : List Nat := natDigitsAux n n

/-- Models Python `str(i)` for a nonzero integer: its decimal numeral. -/
def natRepr (n : Nat) : String :=
  String.mk ((natDecimal n).reverse.map Nat.digitChar)

/-- Value of a little-endian digit list. -/
def fromDigits (l : List Nat) : Nat := l.foldr (fun d r => d + 10 * r) 0

theorem natDigitsAux_fromDigits (fuel : Nat) :
    ∀ n, n ≤ fuel → fromDigits (natDigitsAux fuel n) = n := by
  induction fuel with
  | zero => intro n hn; interval_cases n; simp [natDigitsAux, fromDigits]
  | succ fuel ih =>
    intro n hn
    by_cases h0 : n = 0
    · simp [natDigitsAux, h0, fromDigits]
    · have hdiv : n / 10 ≤ fuel := by
        have : n / 10 < n := Nat.div_lt_self (Nat.pos_of_ne_zero h0) (by omega)
        omega
      simp only [natDigitsAux, h0, if_false, fromDigits, List.foldr_cons]
      have := ih (n / 10) hdiv
      simp only [fromDigits] at this
      rw [this]
      exact Nat.mod_add_div n 10

theorem natDecimal_fromDigits (n : Nat) : fromDigits (natDecimal n) = n :=
  natDigitsAux_fromDigits n n le_rfl

theorem natDecimal_injective : Function.Injective natDecimal := by
  intro m n h
  have hm := natDecimal_fromDigits m
  have hn := natDecimal_fromDigits n
  rw [← hm, ← hn, h]

theorem natDigitsAux_lt_ten (fuel : Nat) :
    ∀ n d, d ∈ natDigitsAux fuel n → d < 10 := by
  induction fuel with
  | zero => intro n d hd; simp [natDigitsAux] at hd
  | succ fuel ih =>
    intro n d hd
    by_cases h0 : n = 0
    · simp [natDigitsAux, h0] at hd
    · simp only [natDigitsAux, h0, if_false, List.mem_cons] at hd
      rcases hd with hd | hd
      · subst hd; exact Nat.mod_lt _ (by omega)
      · exact ih _ _ hd

theorem natDigitsAux_ne_nil (fuel n : Nat) (h0 : n ≠ 0) (hf : 0 < fuel) :
    natDigitsAux fuel n ≠ [] := by
  cases fuel with
  | zero => omega
  | succ fuel => simp [natDigitsAux, h0]

/-- Helper: recover a digit from its character. -/
def unDigitChar (c : Char) : Nat := c.toNat - 48

theorem unDigitChar_digitChar (d : Nat) (hd : d < 10) :
    unDigitChar (Nat.digitChar d) = d := by
  interval_cases d <;> decide

theorem natRepr_injective (m n : Nat) (h : natRepr m = natRepr n) : m = n := by
  apply natDecimal_injective
  have h' : (natDecimal m).reverse.map Nat.digitChar =
      (natDecimal n).reverse.map Nat.digitChar := congrArg String.data h
  have hmap : ((natDecimal m).reverse.map Nat.digitChar).map unDigitChar =
      ((natDecimal n).reverse.map Nat.digitChar).map unDigitChar := by rw [h']
  rw [List.map_map, List.map_map] at hmap
  have hm : (natDecimal m).reverse.map (unDigitChar ∘ Nat.digitChar) =
      (natDecimal m).reverse := by
    conv_rhs => rw [← List.map_id ((natDecimal m).reverse)]
    apply List.map_congr_left
    intro d hd
    simp only [Function.comp_apply, id_eq]
    exact unDigitChar_digitChar d
      (natDigitsAux_lt_ten m m d (List.mem_reverse.mp hd))
  have hn : (natDecimal n).reverse.map (unDigitChar ∘ Nat.digitChar) =
      (natDecimal n).reverse := by
    conv_rhs => rw [← List.map_id ((natDecimal n).reverse)]
    apply List.map_congr_left
    intro d hd
    simp only [Function.comp_apply, id_eq]
    exact unDigitChar_digitChar d
      (natDigitsAux_lt_ten n n d (List.mem_reverse.mp hd))
  rw [hm, hn] at hmap
  exact List.reverse_injective hmap

theorem natRepr_ne_empty (n : Nat) (h0 : n ≠ 0) : natRepr n ≠ "" := by
  simp only [natRepr]
  intro h
  have : ((natDecimal n).reverse.map Nat.digitChar) = [] := by
    have := congrArg String.data h
    simpa using this
  rcases List.map_eq_nil_iff.mp this with h2
  have := natDigitsAux_ne_nil n n h0 (Nat.pos_of_ne_zero h0)
  simp only [natDecimal] at *
  exact this (List.reverse_eq_nil_iff.mp h2)

/-- The sequence of candidate names the `unique_filename` while loop tries:
index 0 is the bare `base`, index `k ≥ 1` is `f"{base}_{k+1}"` (so index 1
is `base_2`, matching `i = 2` at loop entry in the source). -/
def suffixCandidate (base : String) : Nat → String
  | 0 => base
  | k + 1 => base ++ "_" ++ natRepr (k + 2)

theorem string_append_cancel_left (a b c : String) (h : a ++ b = a ++ c) :
    b = c := by
  have hd := congrArg String.data h
  simp only [String.data_append] at hd
  exact String.ext (List.append_cancel_left hd)

theorem suffixCandidate_injective (base : String) :
    Function.Injective (suffixCandidate base) := by
  intro j k h
  match j, k with
  | 0, 0 => rfl
  | 0, k + 1 =>
    exfalso
    simp only [suffixCandidate] at h
    have := congrArg String.length h
    simp only [String.length_append] at this
    have hne := natRepr_ne_empty (k + 2) (by omega)
    have : (natRepr (k + 2)).length ≠ 0 := by
      intro hz
      exact hne (String.ext (List.length_eq_zero.mp hz))
    omega
  | j + 1, 0 =>
    exfalso
    simp only [suffixCandidate] at h
    have := congrArg String.length h
    simp only [String.length_append] at this
    have hne := natRepr_ne_empty (j + 2) (by omega)
    have : (natRepr (j + 2)).length ≠ 0 := by
      intro hz
      exact hne (String.ext (List.length_eq_zero.mp hz))
    omega
  | j + 1, k + 1 =>
    simp only [suffixCandidate, String.append_assoc] at h
    have h2 := string_append_cancel_left _ _ _ h
    have h3 := string_append_cancel_left "_" _ _ h2
    have := natRepr_injective _ _ h3
    omega

/-- Models the `while candidate in existing: candidate = f"{base}_{i}"; i += 1`
loop shared by both `unique_filename` variants; `idx` is the index of the
current candidate in `suffixCandidate` and the fuel given at top level is large
enough that the first free candidate is always reached. -/
def uniqueLoop (cleaned : List String) (base : String) : Nat → Nat → String
  | idx, 0 => suffixCandidate base idx
  | idx, fuel + 1 =>
    if suffixCandidate base idx ∈ cleaned then uniqueLoop cleaned base (idx + 1) fuel
    else suffixCandidate base idx

theorem uniqueLoop_spec (cleaned : List String) (base : String) :
    ∀ fuel idx, (∃ m, idx ≤ m ∧ m < idx + fuel + 1 ∧ suffixCandidate base m ∉ cleaned) →
    ∃ m, idx ≤ m ∧ suffixCandidate base m ∉ cleaned ∧
      (∀ j, idx ≤ j → j < m → suffixCandidate base j ∈ cleaned) ∧
      uniqueLoop cleaned base idx fuel = suffixCandidate base m := by
  intro fuel
  induction fuel with
  | zero =>
    intro idx ⟨m, hm1, hm2, hm3⟩
    have : m = idx := by omega
    subst this
    exact ⟨m, le_rfl, hm3, fun j h1 h2 => absurd (lt_of_le_of_lt h1 h2) (lt_irrefl _), rfl⟩
  | succ fuel ih =>
    intro idx ⟨m, hm1, hm2, hm3⟩
    by_cases hidx : suffixCandidate base idx ∈ cleaned
    · have hmne : m ≠ idx := by rintro rfl; exact hm3 hidx
      obtain ⟨m', h1, h2, h3, h4⟩ := ih (idx + 1) ⟨m, by omega, by omega, hm3⟩
      refine ⟨m', by omega, h2, ?_, ?_⟩
      · intro j hj1 hj2
        rcases Nat.eq_or_lt_of_le hj1 with rfl | hj
        · exact hidx
        · exact h3 j hj hj2
      · simp only [uniqueLoop, hidx, if_true]
        exact h4
    · refine ⟨idx, le_rfl, hidx, fun j h1 h2 => absurd (lt_of_le_of_lt h1 h2) (lt_irrefl _), ?_⟩
      simp only [uniqueLoop, hidx, if_false]

theorem exists_free_candidate (cleaned : List String) (base : String) :
    ∃ m, m ≤ cleaned.length ∧ suffixCandidate base m ∉ cleaned := by
  by_contra hcon
  push_neg at hcon
  have hsub : (Finset.range (cleaned.length + 1)).image (suffixCandidate base) ⊆
      cleaned.toFinset := by
    intro x hx
    simp only [Finset.mem_image, Finset.mem_range] at hx
    obtain ⟨m, hm, rfl⟩ := hx
    exact List.mem_toFinset.mpr (hcon m (by omega))
  have hcard := Finset.card_le_card hsub
  rw [Finset.card_image_of_injective _ (suffixCandidate_injective base),
    Finset.card_range] at hcard
  have := cleaned.toFinset_card_le
  omega

/-- The `cleaned_names` set of `tests/core.py` `unique_filename`: the existing
names with `exclude` discarded when given. -/
def cleanedOf (existing : List String) (exclude : Option String) : List String :=
  match exclude with
  | some e => existing.filter (fun x => x ≠ e)
  | none => existing

/-- `unique_filename(base_name, existing_names, exclude)` from `tests/core.py`
lines 67-77: copy the set, discard `exclude` if given, then try `base`,
`base_2`, `base_3`, … until a name not in the cleaned set is found. -/
def unique_filename_core (base : String) (existing : List String)
    (exclude : Option String) : String :=
  uniqueLoop (cleanedOf existing exclude) base 0 (cleanedOf existing exclude).length

/-- `unique_filename(base_name, existing_names)` from
`tests/generate_collections.py` lines 58-65: same search without an exclusion,
and the chosen name is added to the (mutable) set, returned here as the second
component. -/
def unique_filename_gen (base : String) (existing : List String) :
    String × List String :=
  let r := uniqueLoop existing base 0 existing.length
  (r, if r ∈ existing then existing else existing.concat r)

/-- Splitting a character list on a separator character (kernel-computable
model of Python `str.split(sep)` for a one-character separator). -/
def splitOnCharAux (c : Char) : List Char → List Char → List (List Char)
  | [], acc => [acc.reverse]
  | x :: xs, acc =>
    if x = c then acc.reverse :: splitOnCharAux c xs []
    else splitOnCharAux c xs (x :: acc)

/-- Split a string on a separator character. -/
def splitOnChar (c : Char) (s : String) : List String :=
  (splitOnCharAux c s.data []).map String.mk

/-- Models Python `str.endswith(suffix)`. -/
def strEndsWith (s suffix : String) : Bool := suffix.data.isSuffixOf s.data

/-- Join strings with a separator (models `sep.join(parts)`). -/
def joinWith (sep : String) : List String → String
  | [] => ""
  | [x] => x
  | x :: y :: xs => x ++ sep ++ joinWith sep (y :: xs)

/-- Models Python `os.path.basename` on forward-slash paths. -/
def pyBasename (p : String) : String := (splitOnChar '/' p).getLastD ""

/-- Models `pathlib.Path(p).stem`: the final path component without its last
extension. -/
def pyStem (p : String) : String :=
  let b := pyBasename p
  let parts := splitOnChar '.' b
  if parts.length ≤ 1 then b else joinWith "." parts.dropLast

/-- The leaf-level filename computation of `tests/core.py` `recursive_group`
(lines 283-300) for one record.  `core.py` imports `os`, `json`, `hashlib`,
`re`, `unicodedata`, `xml.etree`, `shutil`, `defaultdict`, `typing` and
`extract_metadata` — never `pathlib` — so the name `Path` is unbound.
Building `existing_names = {Path(f).stem for f in os.listdir(group_path) if
f.endswith(".xml")}` evaluates `Path(f)` on the first entry passing the
`.xml` filter and raises `NameError`; with no `.xml` entry the comprehension
yields the empty set without touching `Path`, and the subsequent
`old_stem = Path(tei_abs_path).stem` (line 293) raises the same `NameError`
unconditionally, so the `unique_filename(base_name, existing_names,
exclude=old_stem)` call is never reached. -/
def coreLeafFilename (dirListing : List String) (srcPath : String)
    (baseName : String) : Except String String :=
  match dirListing.filter (fun f => strEndsWith f ".xml") with
  | _ :: _ => .error "NameError: name 'Path' is not defined"
  | [] => .error "NameError: name 'Path' is not defined"

/-- The leaf-level naming loop of `tests/generate_collections.py`
`recursive_group` (lines 253-263): `existing_names = set()` is created fresh
for the group — the target directory is never listed and no exclusion is
passed — then each record's `unique_filename(base_name, existing_names)`
result is accumulated into the set, so only names chosen earlier in the same
batch participate in the collision check. -/
def genLeafFilenames : List String → List String → List String
  | [], _ => []
  | b :: bs, existing =>
    (unique_filename_gen b existing).1 ::
      genLeafFilenames bs (unique_filename_gen b existing).2

/-- C5 counterexample: neither leaf writer implements the claimed
directory-collision policy with self-exclusion.  `core.py`'s writer — the one
passing an exclusion — crashes before `unique_filename` is called: with
`opus.xml` listed in the target directory the set comprehension evaluates the
unbound name `Path` (pathlib is never imported) and raises `NameError`.
`generate_collections.py`'s writer consults no on-disk names at all: its name
set starts empty, so a batch of two records slugged "opus" is written as
`opus` and `opus_2` even though `opus.xml` (stem `opus`) already exists in
the directory from a previous run — the first record reuses the on-disk name
unsuffixed, overwriting the existing file. -/
theorem C5_counterexample_no_working_exclusion :
    coreLeafFilename ["opus.xml"] "tei/WORK_001.xml" (clean_id_with_strip "Opus")
      = .error "NameError: name 'Path' is not defined" ∧
    genLeafFilenames [clean_id_with_strip "Opus", clean_id_with_strip "Opus"] []
      = ["opus", "opus_2"] ∧
    pyStem "opus.xml" = "opus" := by
  refine ⟨rfl, by decide, by decide⟩

/-- C5 (amended): `unique_filename` returns the first name in the sequence
`base`, `base_2`, `base_3`, … that is not in the cleaned name set (the existing
names minus the `exclude` argument of the `core.py` variant — whose leaf
caller would set it to the stem of the record's source file, not to its
previous output filename, but crashes on the unbound name `Path` before the
call): the result is never in the cleaned set, and it is either the bare
`base` or the suffixed `base_k` with the smallest `k ≥ 2` whose name is free,
every earlier candidate being taken. -/
theorem C5_unique_filename_first_free (base : String) (existing : List String)
    (exclude : Option String) :
    unique_filename_core base existing exclude ∉ cleanedOf existing exclude ∧
    (unique_filename_core base existing exclude = base ∨
      (base ∈ cleanedOf existing exclude ∧
        ∃ k, 2 ≤ k ∧
          unique_filename_core base existing exclude = base ++ "_" ++ natRepr k ∧
          ∀ j, 2 ≤ j → j < k →
            base ++ "_" ++ natRepr j ∈ cleanedOf existing exclude)) := by
  set cleaned := cleanedOf existing exclude with hc
  obtain ⟨m0, hm0le, hm0free⟩ := exists_free_candidate cleaned base
  obtain ⟨m, -, hfree, hbefore, hloop⟩ :=
    uniqueLoop_spec cleaned base cleaned.length 0 ⟨m0, Nat.zero_le _, by omega, hm0free⟩
  have hr : unique_filename_core base existing exclude = suffixCandidate base m := by
    simpa [unique_filename_core, hc] using hloop
  constructor
  · rw [hr]; exact hfree
  · match m, hfree, hbefore, hr with
    | 0, hfree, hbefore, hr => exact Or.inl (by simpa [suffixCandidate] using hr)
    | m' + 1, hfree, hbefore, hr =>
      refine Or.inr ⟨?_, m' + 2, by omega, by simpa [suffixCandidate] using hr, ?_⟩
      · have := hbefore 0 le_rfl (by omega)
        simpa [suffixCandidate] using this
      · intro j hj2 hjk
        have hj1 : 1 ≤ j - 1 := by omega
        have := hbefore (j - 1) (by omega) (by omega)
        have hcand : suffixCandidate base (j - 1) = base ++ "_" ++ natRepr j := by
          match j, hj2 with
          | j' + 2, _ =>
            show suffixCandidate base (j' + 1) = _
            simp [suffixCandidate]
        rwa [hcand] at this

/-! ## XML element model and `is_parent_changed`

Source: `tests/generate_collections.py` lines 403-418 (identical in
`tests/core.py` lines 468-483).
-/

/-- An XML element: tag, attributes, children (text content is irrelevant to
the member-set comparison and omitted). -/
inductive Elem where
  | node (tag : String) (attrs : List (String × String)) (children : List Elem)

/-- Tag of an element. -/
def Elem.tag : Elem → String
  | .node t _ _ => t

/-- Attributes of an element. -/
def Elem.attrs : Elem → List (String × String)
  | .node _ a _ => a

/-- Children of an element. -/
def Elem.children : Elem → List Elem
  | .node _ _ c => c

/-- `element.attrib.get(k)`. -/
def Elem.attr (e : Elem) (k : String) : Option String := e.attrs.lookup k

/-- Each element of the list together with all its descendants (document
order); `descAux cs` is the element list matched below a node whose children
are `cs`. -/
def descAux : List Elem → List Elem
  | [] => []
  | .node t a cs :: rest => .node t a cs :: (descAux cs ++ descAux rest)

/-- All proper descendants of an element: what the `.//` prefix of
`ElementTree.findall` ranges over. -/
def Elem.descendants : Elem → List Elem
  | .node _ _ cs => descAux cs

/-- The elements matched by `findall(".//members/" + tag)`: children with the
given tag of any `members` descendant (document order of the `members`
parents; only the resulting set is ever used by the source). -/
def membersChildren (root : Elem) (tag : String) : List Elem :=
  (root.descendants.filter (fun e => e.tag = "members")).flatMap
    (fun e => e.children.filter (fun c => c.tag = tag))

/-- Boolean membership in a list (Python `in`). -/
def listMem (x : Option String) : List (Option String) → Bool
  | [] => false
  | y :: ys => if x = y then true else listMem x ys

theorem listMem_iff (x : Option String) (l : List (Option String)) :
    listMem x l = true ↔ x ∈ l := by
  induction l with
  | nil => simp [listMem]
  | cons y ys ih =>
    by_cases h : x = y
    · subst h; simp [listMem]
    · simp [listMem, h, ih]

/-- Python `set(a) == set(b)` on lists. -/
def listSetEq (a b : List (Option String)) : Bool :=
  a.all (fun x => listMem x b) && b.all (fun x => listMem x a)

/-- `is_parent_changed(parent_path, current_members)`: `existingIndex` is the
parsed `parent_path/index.xml` when that file exists (`none` when it does
not); returns `True` without an existing index, otherwise compares the set of
`filepath` attributes of the `members/collection` and `members/resource`
elements of the old index against those of the new members. -/
def is_parent_changed (existingIndex : Option Elem)
    (currentMembers : List Elem) : Bool :=
  match existingIndex with
  | none => true
  | some tree =>
    let oldMembers := (membersChildren tree "collection").map (fun m => m.attr "filepath")
      ++ (membersChildren tree "resource").map (fun m => m.attr "filepath")
    let newMembers := currentMembers.map (fun m => m.attr "filepath")
    !(listSetEq oldMembers newMembers)

theorem listSetEq_iff_toFinset (a b : List (Option String)) :
    listSetEq a b = true ↔ a.toFinset = b.toFinset := by
  simp only [listSetEq, Bool.and_eq_true, List.all_eq_true, listMem_iff]
  constructor
  · rintro ⟨h1, h2⟩
    ext x
    simp only [List.mem_toFinset]
    exact ⟨fun hx => h1 x hx, fun hx => h2 x hx⟩
  · intro h
    constructor
    · intro x hx
      have : x ∈ a.toFinset := List.mem_toFinset.mpr hx
      rw [h] at this
      exact List.mem_toFinset.mp this
    · intro x hx
      have : x ∈ b.toFinset := List.mem_toFinset.mpr hx
      rw [← h] at this
      exact List.mem_toFinset.mp this

/-- C4: `is_parent_changed` returns `False` if and only if an `index.xml`
exists at the parent path and the set of `filepath` attributes of the member
collection and resource elements it lists equals the set of `filepath`
attributes of the newly computed members; equivalently, the rewrite decision
is a membership comparison of child path sets, not a content comparison. -/
theorem C4_is_parent_changed_iff (existingIndex : Option Elem)
    (ms : List Elem) :
    is_parent_changed existingIndex ms = false ↔
    ∃ tree, existingIndex = some tree ∧
      ((membersChildren tree "collection" ++ membersChildren tree "resource").map
        (fun m => m.attr "filepath")).toFinset =
      (ms.map (fun m => m.attr "filepath")).toFinset := by
  match existingIndex with
  | none =>
    simp [is_parent_changed]
  | some tree =>
    simp only [is_parent_changed, Bool.not_eq_false', List.map_append]
    constructor
    · intro h
      exact ⟨tree, rfl, (listSetEq_iff_toFinset _ _).mp h⟩
    · rintro ⟨tree', heq, h⟩
      cases heq
      exact (listSetEq_iff_toFinset _ _).mpr h

/-! ## Filesystem model and the cleanup sweeps

Sources: `tests/generate_collections.py` lines 293-309 and `tests/core.py`
lines 335-369 (`clean_empty_directories_and_indexes`).
-/

/-- A filesystem path relative to the catalog root, which is the empty path;
`os.path.dirname` is `List.dropLast`. -/
abbrev FsPath := List String

/-- The filesystem under the catalog root: the set of existing regular files
and the set of existing directories, as path lists. -/
structure FS where
  files : List FsPath
  dirs : List FsPath
deriving DecidableEq

/-- `os.path.isdir`. -/
def FS.isDir (fs : FS) (p : FsPath) : Bool := decide (p ∈ fs.dirs)

/-- `os.path.isfile`. -/
def FS.isFile (fs : FS) (p : FsPath) : Bool := decide (p ∈ fs.files)

/-- The entry name of `q` when `q` is a direct child of `p`. -/
def childNameOf (p q : FsPath) : Option String :=
  if q.take p.length = p then
    match q.drop p.length with
    | [n] => some n
    | _ => none
  else none

/-- `os.listdir(p)`: the names of the direct children of `p`. -/
def FS.listdir (fs : FS) (p : FsPath) : List String :=
  (fs.files ++ fs.dirs).filterMap (childNameOf p)

/-- `os.remove(p)`. -/
def FS.removeFile (fs : FS) (p : FsPath) : FS :=
  { fs with files := fs.files.filter (fun q => q ≠ p) }

/-- `os.rmdir(p)` (called by the source only on a directory it has just
emptied). -/
def FS.rmdir (fs : FS) (p : FsPath) : FS :=
  { fs with dirs := fs.dirs.filter (fun q => q ≠ p) }

/-- `shutil.rmtree(p)`: remove `p` and everything below it. -/
def FS.rmtree (fs : FS) (p : FsPath) : FS :=
  { files := fs.files.filter (fun q => q.take p.length ≠ p),
    dirs := fs.dirs.filter (fun q => q.take p.length ≠ p) }

/-- One upward pass of `clean_empty_directories_and_indexes` from
`tests/generate_collections.py` lines 293-309, with explicit fuel (the loop
moves to the parent each iteration, so `fuel = p.length` is exact): while the
path is not the catalog root and is a directory, list its contents; when no
entry other than `index.xml` remains, delete `index.xml` if present, remove
the directory and continue at the parent; otherwise stop. -/
def cleanGCAux (fs : FS) : FsPath → Nat → FS
  | _, 0 => fs
  | p, fuel + 1 =>
    if p = [] then fs
    else if fs.isDir p then
      if ((fs.listdir p).filter (fun f => f ≠ "index.xml")).isEmpty then
        cleanGCAux
          ((if fs.isFile (p ++ ["index.xml"])
            then fs.removeFile (p ++ ["index.xml"]) else fs).rmdir p)
          p.dropLast fuel
      else fs
    else fs

/-- `clean_empty_directories_and_indexes(path)` of
`tests/generate_collections.py`. -/
def clean_empty_directories_and_indexes (fs : FS) (p : FsPath) : FS :=
  cleanGCAux fs p p.length

/-- One upward pass of the `tests/core.py` variant (lines 335-369): it only
counts the `.xml` entries other than `index.xml`, and removes the directory
with `shutil.rmtree` (forcing deletion even when non-`.xml` entries or
subdirectories remain). -/
def cleanCoreAux (fs : FS) : FsPath → Nat → FS
  | _, 0 => fs
  | p, fuel + 1 =>
    if p = [] then fs
    else if fs.isDir p then
      if ((fs.listdir p).filter
          (fun f => strEndsWith f ".xml" && f ≠ "index.xml")).isEmpty then
        cleanCoreAux
          ((if fs.isFile (p ++ ["index.xml"])
            then fs.removeFile (p ++ ["index.xml"]) else fs).rmtree p)
          p.dropLast fuel
      else fs
    else fs

/-- `clean_empty_directories_and_indexes(path)` of `tests/core.py`. -/
def clean_empty_directories_and_indexes_core (fs : FS) (p : FsPath) : FS :=
  cleanCoreAux fs p p.length

theorem listdir_of_child (fs : FS) (p : FsPath) (n : String)
    (h : (p ++ [n]) ∈ fs.files ∨ (p ++ [n]) ∈ fs.dirs) :
    n ∈ fs.listdir p := by
  have hname : childNameOf p (p ++ [n]) = some n := by
    simp [childNameOf, List.take_left, List.drop_left]
  apply List.mem_filterMap.mpr
  refine ⟨p ++ [n], ?_, hname⟩
  rcases h with h | h
  · exact List.mem_append.mpr (Or.inl h)
  · exact List.mem_append.mpr (Or.inr h)

theorem cleanGCAux_subset (fuel : Nat) :
    ∀ p fs, (cleanGCAux fs p fuel).files ⊆ fs.files ∧
      (cleanGCAux fs p fuel).dirs ⊆ fs.dirs := by
  induction fuel with
  | zero => intro p fs; exact ⟨fun _ h => h, fun _ h => h⟩
  | succ fuel ih =>
    intro p fs
    by_cases hp : p = []
    · simp [cleanGCAux, hp]
    · simp only [cleanGCAux, hp, if_false]
      by_cases hdir : fs.isDir p
      · simp only [hdir, if_true]
        by_cases hempty : ((fs.listdir p).filter (fun f => f ≠ "index.xml")).isEmpty
        · simp only [hempty, if_true]
          obtain ⟨h1, h2⟩ := ih p.dropLast
            ((if fs.isFile (p ++ ["index.xml"])
              then fs.removeFile (p ++ ["index.xml"]) else fs).rmdir p)
          constructor
          · intro q hq
            have hmem := h1 hq
            by_cases hf : fs.isFile (p ++ ["index.xml"])
            · simp [hf, FS.rmdir, FS.removeFile] at hmem
              exact hmem.1
            · simpa [hf, FS.rmdir] using hmem
          · intro q hq
            have hmem := h2 hq
            by_cases hf : fs.isFile (p ++ ["index.xml"])
            · simp [hf, FS.rmdir, FS.removeFile] at hmem
              exact hmem.1
            · simp [hf, FS.rmdir, FS.removeFile] at hmem
              exact hmem.1
        · simp only [hempty, if_false]
          exact ⟨fun _ h => h, fun _ h => h⟩
      · simp only [hdir, if_false]
        exact ⟨fun _ h => h, fun _ h => h⟩

theorem cleanGCAux_preserves_files (fuel : Nat) :
    ∀ p fs q, q ∈ fs.files → q.getLast? ≠ some "index.xml" →
      q ∈ (cleanGCAux fs p fuel).files := by
  induction fuel with
  | zero => intro p fs q hq _; exact hq
  | succ fuel ih =>
    intro p fs q hq hlast
    by_cases hp : p = []
    · simpa [cleanGCAux, hp] using hq
    · simp only [cleanGCAux, hp, if_false]
      by_cases hdir : fs.isDir p
      · simp only [hdir, if_true]
        by_cases hempty : ((fs.listdir p).filter (fun f => f ≠ "index.xml")).isEmpty
        · simp only [hempty, if_true]
          apply ih
          · have hne : q ≠ p ++ ["index.xml"] := by
              intro hcon
              apply hlast
              rw [hcon]
              simp
            by_cases hf : fs.isFile (p ++ ["index.xml"])
            · simp [hf, FS.rmdir, FS.removeFile, List.mem_filter, hq, hne]
            · simpa [hf, FS.rmdir] using hq
          · exact hlast
        · simp only [if_neg hempty]
          exact hq
      · simp only [if_neg hdir]
        exact hq

theorem cleanGCAux_preserves_root (fuel : Nat) :
    ∀ p fs, [] ∈ fs.dirs → [] ∈ (cleanGCAux fs p fuel).dirs := by
  induction fuel with
  | zero => intro p fs h; exact h
  | succ fuel ih =>
    intro p fs h
    by_cases hp : p = []
    · simpa [cleanGCAux, hp] using h
    · simp only [cleanGCAux, hp, if_false]
      by_cases hdir : fs.isDir p
      · simp only [hdir, if_true]
        by_cases hempty : ((fs.listdir p).filter (fun f => f ≠ "index.xml")).isEmpty
        · simp only [hempty, if_true]
          apply ih
          by_cases hf : fs.isFile (p ++ ["index.xml"]) <;>
            simp [hf, FS.rmdir, FS.removeFile, List.mem_filter, h] <;>
            exact fun hcon => hp (by rw [hcon])
        · simp only [if_neg hempty]
          exact h
      · simp only [if_neg hdir]
        exact h

theorem cleanGCAux_preserves_parent (fuel : Nat) :
    ∀ p fs q n, q ∈ fs.dirs → n ≠ "index.xml" →
      ((q ++ [n]) ∈ (cleanGCAux fs p fuel).files ∨
        (q ++ [n]) ∈ (cleanGCAux fs p fuel).dirs) →
      q ∈ (cleanGCAux fs p fuel).dirs := by
  induction fuel with
  | zero => intro p fs q n hq _ _; exact hq
  | succ fuel ih =>
    intro p fs q n hq hn hchild
    by_cases hp : p = []
    · simpa [cleanGCAux, hp] using hq
    · simp only [cleanGCAux, hp, if_false] at hchild ⊢
      by_cases hdir : fs.isDir p
      · simp only [hdir, if_true] at hchild ⊢
        by_cases hempty : ((fs.listdir p).filter (fun f => f ≠ "index.xml")).isEmpty
        · simp only [hempty, if_true] at hchild ⊢
          set fs1 := if fs.isFile (p ++ ["index.xml"])
            then fs.removeFile (p ++ ["index.xml"]) else fs with hfs1
          by_cases hqp : q = p
          · exfalso
            subst hqp
            obtain ⟨hsub1, hsub2⟩ := cleanGCAux_subset fuel q.dropLast (fs1.rmdir q)
            have hchild2 : (q ++ [n]) ∈ (fs1.rmdir q).files ∨
                (q ++ [n]) ∈ (fs1.rmdir q).dirs := by
              rcases hchild with h | h
              · exact Or.inl (hsub1 h)
              · exact Or.inr (hsub2 h)
            have hchild3 : (q ++ [n]) ∈ fs.files ∨ (q ++ [n]) ∈ fs.dirs := by
              rcases hchild2 with h | h
              · left
                by_cases hf : fs.isFile (q ++ ["index.xml"])
                · simp [hfs1, hf, FS.rmdir, FS.removeFile] at h
                  exact h.1
                · simpa [hfs1, hf, FS.rmdir] using h
              · right
                by_cases hf : fs.isFile (q ++ ["index.xml"]) <;>
                  simp [hfs1, hf, FS.rmdir, FS.removeFile] at h <;>
                  exact h
            have hmem := listdir_of_child fs q n hchild3
            have hinf : n ∈ (fs.listdir q).filter (fun f => f ≠ "index.xml") :=
              List.mem_filter.mpr ⟨hmem, by simpa using hn⟩
            rw [List.isEmpty_iff] at hempty
            rw [hempty] at hinf
            exact List.not_mem_nil n hinf
          · have hq2 : q ∈ (fs1.rmdir p).dirs := by
              by_cases hf : fs.isFile (p ++ ["index.xml"]) <;>
                simp [hfs1, hf, FS.rmdir, FS.removeFile, List.mem_filter, hq, hqp]
            exact ih p.dropLast (fs1.rmdir p) q n hq2 hn hchild
        · simp only [if_neg hempty] at hchild ⊢
          exact hq
      · simp only [if_neg hdir] at hchild ⊢
        exact hq

/-- C2 (amended): the `generate_collections.py` sweep
`clean_empty_directories_and_indexes`, started anywhere, (i) never deletes a
file whose name is not `index.xml`, (ii) never removes the catalog root, and
(iii) never removes a directory with a surviving non-index child entry — so a
directory that still contains a non-index artifact is never deleted, the sweep
removing only index files and directories it has emptied.  (The `core.py`
variant of the same function violates this: see the counterexample.) -/
theorem C2_gc_sweep_safe (fs : FS) (p : FsPath) :
    (∀ q, q ∈ fs.files → q.getLast? ≠ some "index.xml" →
      q ∈ (clean_empty_directories_and_indexes fs p).files) ∧
    ([] ∈ fs.dirs → [] ∈ (clean_empty_directories_and_indexes fs p).dirs) ∧
    (∀ q n, q ∈ fs.dirs → n ≠ "index.xml" →
      ((q ++ [n]) ∈ (clean_empty_directories_and_indexes fs p).files ∨
        (q ++ [n]) ∈ (clean_empty_directories_and_indexes fs p).dirs) →
      q ∈ (clean_empty_directories_and_indexes fs p).dirs) :=
  ⟨fun q hq hlast => cleanGCAux_preserves_files p.length p fs q hq hlast,
   fun h => cleanGCAux_preserves_root p.length p fs h,
   fun q n hq hn hchild => cleanGCAux_preserves_parent p.length p fs q n hq hn hchild⟩

/-- C2 witness: the amended theorem applied to a concrete filesystem — a sweep
started at `["a"]` in a catalog where `["a"]` holds the non-index file
`keep.xml` deletes nothing. -/
theorem C2_gc_sweep_safe_witness :
    (["a", "keep.xml"] ∈
      (clean_empty_directories_and_indexes ⟨[["a", "keep.xml"]], [[], ["a"]]⟩
        ["a"]).files) ∧
    ([] ∈ (clean_empty_directories_and_indexes ⟨[["a", "keep.xml"]], [[], ["a"]]⟩
        ["a"]).dirs) :=
  ⟨(C2_gc_sweep_safe ⟨[["a", "keep.xml"]], [[], ["a"]]⟩ ["a"]).1
      ["a", "keep.xml"] (by decide) (by decide),
   (C2_gc_sweep_safe ⟨[["a", "keep.xml"]], [[], ["a"]]⟩ ["a"]).2.1 (by decide)⟩

/-- C2 counterexample: the `core.py` sweep, run from directory `["d"]` that
still contains the non-index artifact `notes.txt`, deletes both the directory
and the artifact (it only counts `.xml` entries other than `index.xml` and
force-removes with `shutil.rmtree`), contradicting the claim that the sweep
never deletes a directory still containing a non-index artifact. -/
theorem C2_counterexample_core_rmtree :
    (["d"] ∈ (FS.mk [["d", "notes.txt"]] [[], ["d"]]).dirs ∧
      ["d", "notes.txt"] ∈ (FS.mk [["d", "notes.txt"]] [[], ["d"]]).files ∧
      "notes.txt" ≠ "index.xml") ∧
    ["d"] ∉ (clean_empty_directories_and_indexes_core
        (FS.mk [["d", "notes.txt"]] [[], ["d"]]) ["d"]).dirs ∧
    ["d", "notes.txt"] ∉ (clean_empty_directories_and_indexes_core
        (FS.mk [["d", "notes.txt"]] [[], ["d"]]) ["d"]).files := by
  refine ⟨⟨by decide, by decide, by decide⟩, by decide, by decide⟩

/-! ## Hierarchy configuration, metadata model, fingerprints

Sources: `tests/generate_collections.py` lines 77-86 (`extract_hierarchy`),
lines 150-158 (`detect_changed_level`); field values are the shapes produced
by `tests/extract_metadata.py` (plain strings or per-language dicts).
-/

/-- A metadata field value: a plain string or a per-language mapping (the two
runtime shapes the source tests with `isinstance(val, dict)`). -/
inductive MetaVal where
  | str (s : String)
  | dict (m : List (String × String))
deriving DecidableEq

/-- An extracted record: a Python dict from field names to values, as an
association list (first binding wins on lookup; the builders below never
produce duplicate keys). -/
abbrev Metadata := List (String × MetaVal)

/-- One level of the configured hierarchy `[{key, title, slug, if_missing?}]`
(`config.json`, consumed at `generate_collections.py` lines 216-288). -/
structure HLevel where
  key : String
  title : String
  slug : String
  if_missing : Option String
deriving DecidableEq

/-- `level["key"].split(":")[-1]`. -/
def levelKey (l : HLevel) : String := (splitOnChar ':' l.key).getLastD ""

/-- `current_config.get("if_missing", "create_unknown")`. -/
def ifMissingOf (l : HLevel) : String := l.if_missing.getD "create_unknown"

/-- Python `d.get(k, dflt)` on a string dict. -/
def dGetD (m : List (String × String)) (k dflt : String) : String :=
  (m.lookup k).getD dflt

/-- Python dict assignment `h[key] = v` on an association list: overwrite in
place, or append a new binding. -/
def dictInsert {β : Type} (m : List (String × β)) (k : String) (v : β) :
    List (String × β) :=
  if (m.lookup k).isSome then m.map (fun p => if p.1 = k then (k, v) else p)
  else m ++ [(k, v)]

/-- Python dict equality (`==`) on association lists: same keys, same values
(the lists compared in the source are built by `dictInsert` from `[]` and hold
no duplicate keys). -/
def dictEq (a b : List (String × String)) : Bool :=
  a.all (fun p => b.lookup p.1 = some p.2) && b.all (fun p => a.lookup p.1 = some p.2)

/-- Python truthiness of a metadata value (`if not value:`): empty strings and
empty dicts are falsy. -/
def MetaVal.truthy : MetaVal → Bool
  | .str s => s ≠ ""
  | .dict m => m ≠ []

/-- The slug `extract_hierarchy` records for field `k` of `md`, when it
records one: a dict value of any content yields the slug of its `"en"` entry
(default `""`, hence `"unknown"`), a nonempty plain value yields its slug, an
absent or empty plain value yields nothing. -/
def hierSlug (md : Metadata) (k : String) : Option String :=
  match md.lookup k with
  | some (MetaVal.dict m) => some (clean_id_with_strip (dGetD m "en" ""))
  | some (MetaVal.str s) => if s ≠ "" then some (clean_id_with_strip s) else none
  | none => none

/-- `extract_hierarchy(metadata, config)` from `generate_collections.py` lines
77-86: the `isinstance(val, dict)` branch is tested before truthiness, so any
dict contributes a slug while an absent or empty plain value omits the level
key. -/
def extract_hierarchy (metadata : Metadata) (hierarchy : List HLevel) :
    List (String × String) :=
  hierarchy.foldl (fun h level =>
    let key := levelKey level
    match metadata.lookup key with
    | some (MetaVal.dict m) => dictInsert h key (clean_id_with_strip (dGetD m "en" ""))
    | some (MetaVal.str s) =>
      if s ≠ "" then dictInsert h key (clean_id_with_strip s) else h
    | none => h) []

theorem lookupCons {β : Type} (k x : String) (y : β) (m : List (String × β)) :
    (((x, y) :: m).lookup k) = if k = x then some y else m.lookup k := by
  by_cases h : k = x
  · subst h; simp
  · have hb : (k == x) = false := beq_false_of_ne h
    simp [List.lookup, hb, h]

theorem lookup_mapReplace {β : Type} (k : String) (v : β) :
    ∀ m : List (String × β), (m.lookup k).isSome →
      (m.map (fun p => if p.1 = k then (k, v) else p)).lookup k = some v := by
  intro m
  induction m with
  | nil => intro h; simp at h
  | cons a m ih =>
    rcases a with ⟨x, y⟩
    intro h
    by_cases hk : x = k
    · subst hk
      simp only [List.map_cons, if_pos rfl]
      rw [lookupCons]
      simp
    · simp only [List.map_cons]
      rw [if_neg (by simpa using hk)]
      rw [lookupCons]
      rw [if_neg (Ne.symm hk)]
      apply ih
      rw [lookupCons, if_neg (Ne.symm hk)] at h
      exact h

theorem lookup_mapReplace_ne {β : Type} (k : String) (v : β) (k' : String)
    (hne : k' ≠ k) :
    ∀ m : List (String × β),
      (m.map (fun p => if p.1 = k then (k, v) else p)).lookup k' = m.lookup k' := by
  intro m
  induction m with
  | nil => simp
  | cons a m ih =>
    rcases a with ⟨x, y⟩
    by_cases hk : x = k
    · subst hk
      have hhead : (if (x, y).1 = x then (x, v) else (x, y)) = (x, v) := by simp
      rw [List.map_cons, hhead, lookupCons, lookupCons, if_neg hne, if_neg hne]
      exact ih
    · simp only [List.map_cons]
      rw [if_neg (by simpa using hk)]
      rw [lookupCons, lookupCons]
      by_cases hk' : k' = x
      · rw [if_pos hk', if_pos hk']
      · rw [if_neg hk', if_neg hk']
        exact ih

theorem lookup_append_single {β : Type} (k : String) (v : β) :
    ∀ m : List (String × β), m.lookup k = none →
      (m ++ [(k, v)]).lookup k = some v := by
  intro m
  induction m with
  | nil =>
    intro _
    rw [List.nil_append, lookupCons]
    simp
  | cons a m ih =>
    rcases a with ⟨x, y⟩
    intro h
    rw [lookupCons] at h
    by_cases hk : k = x
    · rw [if_pos hk] at h; exact absurd h (by simp)
    · rw [if_neg hk] at h
      rw [List.cons_append, lookupCons, if_neg hk]
      exact ih h

theorem lookup_append_single_ne {β : Type} (k : String) (v : β) (k' : String)
    (hne : k' ≠ k) :
    ∀ m : List (String × β), (m ++ [(k, v)]).lookup k' = m.lookup k' := by
  intro m
  induction m with
  | nil =>
    rw [List.nil_append, lookupCons, if_neg hne]
  | cons a m ih =>
    rcases a with ⟨x, y⟩
    rw [List.cons_append, lookupCons, lookupCons]
    by_cases hk' : k' = x
    · rw [if_pos hk', if_pos hk']
    · rw [if_neg hk', if_neg hk']
      exact ih

theorem lookup_dictInsert_self {β : Type} (m : List (String × β)) (k : String)
    (v : β) :
    (dictInsert m k v).lookup k = some v := by
  unfold dictInsert
  by_cases h : (m.lookup k).isSome
  · rw [if_pos h]
    exact lookup_mapReplace k v m h
  · rw [if_neg h]
    apply lookup_append_single
    rcases hcase : m.lookup k with _ | w
    · rfl
    · rw [hcase] at h
      simp at h

theorem lookup_dictInsert_ne {β : Type} (m : List (String × β)) (k : String)
    (v : β) (k' : String)
    (hne : k' ≠ k) : (dictInsert m k v).lookup k' = m.lookup k' := by
  unfold dictInsert
  by_cases h : (m.lookup k).isSome
  · rw [if_pos h]
    exact lookup_mapReplace_ne k v k' hne m
  · rw [if_neg h]
    exact lookup_append_single_ne k v k' hne m

theorem hierStep_eq (md : Metadata) (h : List (String × String)) (level : HLevel) :
    (let key := levelKey level
     match md.lookup key with
     | some (MetaVal.dict m) => dictInsert h key (clean_id_with_strip (dGetD m "en" ""))
     | some (MetaVal.str s) =>
       if s ≠ "" then dictInsert h key (clean_id_with_strip s) else h
     | none => h) =
    (match hierSlug md (levelKey level) with
     | some v => dictInsert h (levelKey level) v
     | none => h) := by
  show (match md.lookup (levelKey level) with
    | some (MetaVal.dict m) =>
      dictInsert h (levelKey level) (clean_id_with_strip (dGetD m "en" ""))
    | some (MetaVal.str s) =>
      if s ≠ "" then dictInsert h (levelKey level) (clean_id_with_strip s) else h
    | none => h) = _
  unfold hierSlug
  rcases md.lookup (levelKey level) with _ | v
  · rfl
  · rcases v with s | m
    · by_cases hs : s = "" <;> simp [hs]
    · rfl

theorem extract_hierarchy_foldl_lookup (md : Metadata) :
    ∀ (levels : List HLevel) (acc : List (String × String)) (k : String),
      (levels.foldl (fun h level =>
        let key := levelKey level
        match md.lookup key with
        | some (MetaVal.dict m) =>
          dictInsert h key (clean_id_with_strip (dGetD m "en" ""))
        | some (MetaVal.str s) =>
          if s ≠ "" then dictInsert h key (clean_id_with_strip s) else h
        | none => h) acc).lookup k =
      (if k ∈ levels.map levelKey then
        match hierSlug md k with
        | some v => some v
        | none => acc.lookup k
      else acc.lookup k) := by
  intro levels
  induction levels with
  | nil => intro acc k; simp
  | cons level rest ih =>
    intro acc k
    simp only [List.foldl_cons]
    rw [hierStep_eq md acc level]
    rw [ih]
    by_cases hmemr : k ∈ rest.map levelKey
    · have hmemc : k ∈ (level :: rest).map levelKey := by
        simp only [List.map_cons, List.mem_cons]
        exact Or.inr hmemr
      rw [if_pos hmemr, if_pos hmemc]
      rcases hks : hierSlug md k with _ | v
      · by_cases hkl : k = levelKey level
        · subst hkl
          rw [hks]
        · rcases hls : hierSlug md (levelKey level) with _ | w
          · rfl
          · exact lookup_dictInsert_ne acc (levelKey level) w k hkl
      · rfl
    · by_cases hkl : k = levelKey level
      · have hmemc : k ∈ (level :: rest).map levelKey := by
          simp only [List.map_cons, List.mem_cons]
          exact Or.inl hkl
        rw [if_neg hmemr, if_pos hmemc, ← hkl]
        rcases hks : hierSlug md k with _ | v
        · rfl
        · exact lookup_dictInsert_self acc k v
      · have hmemc : k ∉ (level :: rest).map levelKey := by
          simp only [List.map_cons, List.mem_cons]
          rintro (h | h)
          · exact hkl h
          · exact hmemr h
        rw [if_neg hmemr, if_neg hmemc]
        rcases hls : hierSlug md (levelKey level) with _ | w
        · rfl
        · exact lookup_dictInsert_ne acc (levelKey level) w k hkl

theorem extract_hierarchy_lookup (md : Metadata) (levels : List HLevel)
    (k : String) :
    (extract_hierarchy md levels).lookup k =
      (if k ∈ levels.map levelKey then hierSlug md k else none) := by
  unfold extract_hierarchy
  rw [extract_hierarchy_foldl_lookup]
  by_cases hmem : k ∈ levels.map levelKey
  · rw [if_pos hmem, if_pos hmem]
    rcases hks : hierSlug md k with _ | v <;> simp
  · rw [if_neg hmem, if_neg hmem]
    simp

/-- C10: a level's key is present in the hierarchy fingerprint if and only if
the record's value for that field is a dict (of any content) or a nonempty
plain string; a per-language dict lacking an "en" entry still yields the slug
"unknown"; an absent or empty plain value omits the key; and a field moving
from localized-without-English to absent changes the fingerprint. -/
theorem C10_extract_hierarchy_char (md : Metadata) (levels : List HLevel)
    (k : String) :
    ((extract_hierarchy md levels).lookup k =
      (if k ∈ levels.map levelKey then hierSlug md k else none)) ∧
    (k ∈ levels.map levelKey →
      (((extract_hierarchy md levels).lookup k).isSome ↔
        (∃ m, md.lookup k = some (MetaVal.dict m)) ∨
        (∃ s, md.lookup k = some (MetaVal.str s) ∧ s ≠ ""))) ∧
    (∀ m, k ∈ levels.map levelKey → md.lookup k = some (MetaVal.dict m) →
      m.lookup "en" = none →
      (extract_hierarchy md levels).lookup k = some "unknown") ∧
    dictEq
      (extract_hierarchy [("author", MetaVal.dict [("fr", "Xavier")])]
        [⟨"ns:author", "Author", "authors", none⟩])
      (extract_hierarchy [] [⟨"ns:author", "Author", "authors", none⟩]) = false := by
  refine ⟨extract_hierarchy_lookup md levels k, ?_, ?_, by decide⟩
  · intro hmem
    rw [extract_hierarchy_lookup, if_pos hmem]
    unfold hierSlug
    rcases hl : md.lookup k with _ | v
    · simp
    · rcases v with s | m
      · by_cases hs : s = ""
        · simp [hs]
        · simp [hs]
      · simp
  · intro m hmem hl hen
    rw [extract_hierarchy_lookup, if_pos hmem]
    unfold hierSlug
    rw [hl]
    show some (clean_id_with_strip (dGetD m "en" "")) = some "unknown"
    have hd : dGetD m "en" "" = "" := by
      unfold dGetD
      rw [hen]
      rfl
    rw [hd]
    rfl

/-- C10 witness: the characterization applied at a concrete record whose
author field is localized without an "en" entry. -/
theorem C10_extract_hierarchy_char_witness :
    (extract_hierarchy [("author", MetaVal.dict [("fr", "Xavier")])]
      [⟨"ns:author", "Author", "authors", none⟩]).lookup "author"
      = some "unknown" :=
  (C10_extract_hierarchy_char [("author", MetaVal.dict [("fr", "Xavier")])]
    [⟨"ns:author", "Author", "authors", none⟩] "author").2.2.1
    [("fr", "Xavier")] (by decide) (by decide) (by decide)

/-- A placeholder level for positional indexing in statements. -/
def defaultHLevel : HLevel := ⟨"", "", "", none⟩

/-- The indexed scan of `detect_changed_level`: `for i, level in
enumerate(config["hierarchy"]): if old.get(key) != new.get(key): return i`. -/
def detectAux (old new : List (String × String)) :
    List HLevel → Nat → Option Nat
  | [], _ => none
  | level :: rest, i =>
    if old.lookup (levelKey level) ≠ new.lookup (levelKey level) then some i
    else detectAux old new rest (i + 1)

/-- `detect_changed_level(old, new)` from `generate_collections.py` lines
150-158: the first hierarchy level index whose value changed (`dict.get`, so a
key absent on one side compares as `None`), or `len(config["hierarchy"]) - 1`
when no level differs (a Python `int`, hence `-1` for an empty hierarchy). -/
def detect_changed_level (hierarchy : List HLevel)
    (old new : List (String × String)) : Int :=
  match detectAux old new hierarchy 0 with
  | some i => (i : Int)
  | none => (hierarchy.length : Int) - 1

theorem detectAux_none_iff (old new : List (String × String)) :
    ∀ levels i0, detectAux old new levels i0 = none ↔
      ∀ l ∈ levels, old.lookup (levelKey l) = new.lookup (levelKey l) := by
  intro levels
  induction levels with
  | nil => intro i0; simp [detectAux]
  | cons level rest ih =>
    intro i0
    constructor
    · intro h
      unfold detectAux at h
      by_cases hd : old.lookup (levelKey level) ≠ new.lookup (levelKey level)
      · rw [if_pos hd] at h
        exact absurd h (by simp)
      · rw [if_neg hd] at h
        push_neg at hd
        intro l hl
        rcases List.mem_cons.mp hl with rfl | hl
        · exact hd
        · exact ((ih (i0 + 1)).mp h) l hl
    · intro h
      unfold detectAux
      have hd : ¬(old.lookup (levelKey level) ≠ new.lookup (levelKey level)) := by
        push_neg
        exact h level (List.mem_cons_self _ _)
      rw [if_neg hd]
      exact (ih (i0 + 1)).mpr (fun l hl => h l (List.mem_cons_of_mem _ hl))

theorem detectAux_some_spec (old new : List (String × String)) :
    ∀ levels i0 i, detectAux old new levels i0 = some i →
      i0 ≤ i ∧ i - i0 < levels.length ∧
      old.lookup (levelKey (levels.getD (i - i0) defaultHLevel)) ≠
        new.lookup (levelKey (levels.getD (i - i0) defaultHLevel)) ∧
      ∀ j, j < i - i0 →
        old.lookup (levelKey (levels.getD j defaultHLevel)) =
          new.lookup (levelKey (levels.getD j defaultHLevel)) := by
  intro levels
  induction levels with
  | nil => intro i0 i h; simp [detectAux] at h
  | cons level rest ih =>
    intro i0 i h
    unfold detectAux at h
    by_cases hd : old.lookup (levelKey level) ≠ new.lookup (levelKey level)
    · rw [if_pos hd] at h
      have hi : i = i0 := by simpa using h.symm
      subst hi
      refine ⟨le_rfl, by simp, ?_, ?_⟩
      · simpa using hd
      · intro j hj
        omega
    · rw [if_neg hd] at h
      obtain ⟨h1, h2, h3, h4⟩ := ih (i0 + 1) i h
      push_neg at hd
      have hsub : i - i0 = (i - (i0 + 1)) + 1 := by omega
      refine ⟨by omega, by simp; omega, ?_, ?_⟩
      · rw [hsub]
        simpa using h3
      · intro j hj
        rcases j with _ | j'
        · simpa using hd
        · have : j' < i - (i0 + 1) := by omega
          simpa using h4 j' this

/-- C9: `detect_changed_level` returns the smallest index (root-to-leaf) at
which the old and new fingerprint values for that level's key differ (an
absent key comparing as `None`); when no configured level differs it returns
the index of the last level. -/
theorem C9_detect_changed_level (hierarchy : List HLevel)
    (old new : List (String × String)) :
    (∃ i, i < hierarchy.length ∧
      old.lookup (levelKey (hierarchy.getD i defaultHLevel)) ≠
        new.lookup (levelKey (hierarchy.getD i defaultHLevel)) ∧
      (∀ j, j < i →
        old.lookup (levelKey (hierarchy.getD j defaultHLevel)) =
          new.lookup (levelKey (hierarchy.getD j defaultHLevel))) ∧
      detect_changed_level hierarchy old new = (i : Int)) ∨
    ((∀ l ∈ hierarchy,
        old.lookup (levelKey l) = new.lookup (levelKey l)) ∧
      detect_changed_level hierarchy old new = (hierarchy.length : Int) - 1) := by
  unfold detect_changed_level
  rcases hcase : detectAux old new hierarchy 0 with _ | i
  · right
    exact ⟨(detectAux_none_iff old new hierarchy 0).mp hcase, rfl⟩
  · left
    obtain ⟨h1, h2, h3, h4⟩ := detectAux_some_spec old new hierarchy 0 i hcase
    rw [Nat.sub_zero] at h2 h3
    refine ⟨i, h2, h3, ?_, rfl⟩
    intro j hj
    have := h4 j (by omega)
    simpa using this

/-! ## Grouping engine (`recursive_group`)

Source: `tests/generate_collections.py` lines 216-288, plus the import-time
namespace validation at lines 38-41 — the only fail-fast configuration check
in the source.
-/

/-- An artifact-level filesystem event: the grouping engine and the deletion
helpers write resource files, write index files, delete files, or delete
trees; none of them ever touches the build-state file. -/
inductive ArtEvent where
  | writeResource (p : String)
  | writeIndex (p : String)
  | deleteFile (p : String)
  | deleteTree (p : String)
deriving DecidableEq

/-- `os.path.join` on forward-slash paths. -/
def pjoin (a b : String) : String := a ++ "/" ++ b

/-- Models Python `str.startswith`. -/
def strStartsWith (s patt : String) : Bool := patt.data.isPrefixOf s.data

/-- Models `os.path.relpath(p, start)` for the descendant case — the only case
whose result feeds back into index-member comparisons; a non-descendant path
is returned in an encoded form adequate for the equality tests the source
performs on these strings. -/
def relpathStr (p start : String) : String :=
  if strStartsWith p (start ++ "/") then String.mk (p.data.drop (start.length + 1))
  else "<rel>" ++ p ++ "|" ++ start

/-- The import-time check of `generate_collections.py` lines 38-41: the
namespace prefix of every hierarchy key must be declared, else a
`RuntimeError` is raised before anything runs. -/
def validateNamespaces (cfg : List HLevel)
    (namespaces : List (String × String)) : Except String Unit :=
  match (cfg.map (fun h => (splitOnChar ':' h.key).headD "")).find?
      (fun ns => !((namespaces.map Prod.fst).any (fun p => p == ns))) with
  | some ns => Except.error
      ("Namespace '" ++ ns ++ "' must be defined in the config file namespaces.")
  | none => Except.ok ()

/-- `clean_id_with_strip(value.get("en") if isinstance(value, dict) else
value)`: the grouping slug of a truthy field value (a dict missing "en" slugs
to "unknown", like an empty string). -/
def groupIdOf : MetaVal → String
  | .dict m => clean_id_with_strip (dGetD m "en" "")
  | .str s => clean_id_with_strip s

/-- The state of the per-level partition: groups in first-seen order plus the
items deferred to the parent. -/
structure GroupSplit where
  groups : List (String × List Metadata)
  attach : List Metadata

/-- `groups[group_id].append(item)` on a `defaultdict(list)`: append to the
group, creating it at the end on first sight. -/
def addToGroup (gs : List (String × List Metadata)) (gid : String)
    (item : Metadata) : List (String × List Metadata) :=
  if (gs.lookup gid).isSome then
    gs.map (fun p => if p.1 = gid then (p.1, p.2 ++ [item]) else p)
  else gs ++ [(gid, [item])]

/-- The missing-value policy of `recursive_group` lines 232-239: `skip` drops
the item, `attach_to_parent` defers it, `create_unknown` buckets it under
"Unknown slug"; any other policy string falls through every branch, and the
falsy value then slugs to "unknown". -/
def missingRoute (slug ifm : String) (st : GroupSplit) (item : Metadata) :
    GroupSplit :=
  if ifm = "skip" then st
  else if ifm = "attach_to_parent" then { st with attach := st.attach ++ [item] }
  else if ifm = "create_unknown" then
    { st with groups :=
        addToGroup st.groups (clean_id_with_strip ("Unknown " ++ slug)) item }
  else { st with groups := addToGroup st.groups "unknown" item }

/-- The per-level partition loop of `recursive_group` lines 227-241. -/
def splitItems (slug levKey ifm : String) (items : List Metadata) : GroupSplit :=
  items.foldl (fun st item =>
    match item.lookup levKey with
    | some v =>
      if v.truthy then { st with groups := addToGroup st.groups (groupIdOf v) item }
      else missingRoute slug ifm st item
    | none => missingRoute slug ifm st item) ⟨[], []⟩

/-- `res.get("title", dict()).get("en") or "work"`, the fallback of the leaf
title choice; `none` models the `AttributeError` the source would raise when
the record's `title` is a plain string (`.get` on a string). -/
def titleFallback (md : Metadata) : Option String :=
  match md.lookup "title" with
  | some (MetaVal.dict m) =>
    match m.lookup "en" with
    | some s => if s ≠ "" then some s else some "work"
    | none => some "work"
  | some (MetaVal.str _) => none
  | none => some "work"

/-- `res.get("workTitle") or res.get("title", dict()).get("en") or "work"`:
`none` models a record shape on which the source would raise (a nonempty
per-language `workTitle` reaches `clean_id_with_strip`, which calls
`unicodedata.normalize` on a dict: `TypeError`). -/
def rawTitleOf (md : Metadata) : Option String :=
  match md.lookup "workTitle" with
  | some (MetaVal.str s) => if s ≠ "" then some s else titleFallback md
  | some (MetaVal.dict m) => if m ≠ [] then none else titleFallback md
  | none => titleFallback md

/-- The leaf-resource loop of `recursive_group` lines 253-263: write one
resource file per record, naming it through `unique_filename` against the
(initially empty) mutable name set; the loop variable `filepath` of the last
iteration survives and is used for the member reference. -/
def leafLoop (groupPath : String) : List Metadata → List String →
    List ArtEvent → Option String → Option (List ArtEvent × Option String)
  | [], _, evs, lastFp => some (evs, lastFp)
  | res :: rest, names, evs, _ =>
    match rawTitleOf res with
    | none => none
    | some rt =>
      let base := clean_id_with_strip rt
      let r := unique_filename_gen base names
      let fp := pjoin groupPath (r.1 ++ ".xml")
      leafLoop groupPath rest r.2 (evs ++ [ArtEvent.writeResource fp]) (some fp)

/-- A member reference element (`build_collection_element(...,
is_reference=True, filepath=...)`): a bare `collection` element carrying only
the `filepath` attribute. -/
def refElem (filepath : String) : Elem :=
  Elem.node "collection" [("filepath", filepath)] []

/-- `recursive_group(level, parent_path, items, parent_id)` from
`generate_collections.py` lines 216-288, with the filesystem reads needed by
`is_parent_changed` abstracted as `readIndex` (the parsed content of an
`index.xml` path, `none` when absent) and the writes reported as events.  The
fuel is structural and `recursive_group` below supplies exactly
`cfg.length - level`, the depth the source recursion can reach; `none` models
the `TypeError`/`NameError` crashes of unmodellable record shapes. -/
def recursive_groupAux (cfg : List HLevel) (readIndex : String → Option Elem) :
    Nat → Nat → String → List Metadata → String → Option (List Elem × List ArtEvent)
  | 0, _, _, _, _ => some ([], [])
  | fuel + 1, level, parent_path, items, parent_id =>
    if level ≥ cfg.length then some ([], [])
    else
      let current := cfg.getD level defaultHLevel
      let levKey := levelKey current
      let slug := current.slug
      let st := splitItems slug levKey (ifMissingOf current) items
      let isLeaf := level = cfg.length - 1
      let perGroup := st.groups.foldl (fun acc g =>
        match acc with
        | none => none
        | some (members, events) =>
          let gid := g.1
          let group_identifier := if parent_id ≠ "" then parent_id ++ "_" ++ gid else gid
          if isLeaf then
            let group_path := pjoin parent_path slug
            match leafLoop group_path g.2 [] [] none with
            | none => none
            | some (evs, some lastFp) =>
              some (members ++ [refElem (relpathStr lastFp parent_path)], events ++ evs)
            | some (_, none) => none
          else
            let group_path := pjoin (pjoin parent_path slug) gid
            match recursive_groupAux cfg readIndex fuel (level + 1) group_path g.2
                group_identifier with
            | none => none
            | some (sub_members, sub_events) =>
              if sub_members.isEmpty then some (members, events ++ sub_events)
              else if is_parent_changed (readIndex (pjoin group_path "index.xml"))
                  sub_members then
                some (members ++
                    [refElem (relpathStr (pjoin group_path "index.xml") parent_path)],
                  events ++ sub_events ++
                    [ArtEvent.writeIndex (pjoin group_path "index.xml")])
              else some (members, events ++ sub_events))
        (some ([], []))
      match perGroup with
      | none => none
      | some (members, events) =>
        if st.attach ≠ [] then
          match recursive_groupAux cfg readIndex fuel (level + 1) parent_path st.attach
              parent_id with
          | none => none
          | some (am, ae) => some (members ++ am, events ++ ae)
        else some (members, events)

/-- `recursive_group` entered at `level`: the source recursion bottoms out at
the last configured level, so `cfg.length - level` fuel is exact. -/
def recursive_group (cfg : List HLevel) (readIndex : String → Option Elem)
    (level : Nat) (parent_path : String) (items : List Metadata)
    (parent_id : String) : Option (List Elem × List ArtEvent) :=
  recursive_groupAux cfg readIndex (cfg.length - level) level parent_path items parent_id

theorem splitItems_all_missing_attach (slug levKey : String)
    (items : List Metadata)
    (hmiss : ∀ md ∈ items, ∀ v, md.lookup levKey = some v → v.truthy = false) :
    splitItems slug levKey "attach_to_parent" items = ⟨[], items⟩ := by
  suffices h : ∀ (items' : List Metadata),
      (∀ md ∈ items', ∀ v, md.lookup levKey = some v → v.truthy = false) →
      ∀ (gs : List (String × List Metadata)) (at0 : List Metadata),
      (items'.foldl (fun (st : GroupSplit) item =>
        match item.lookup levKey with
        | some v =>
          if v.truthy then
            { st with groups := addToGroup st.groups (groupIdOf v) item }
          else missingRoute slug "attach_to_parent" st item
        | none => missingRoute slug "attach_to_parent" st item)
        (⟨gs, at0⟩ : GroupSplit)) = ⟨gs, at0 ++ items'⟩ by
    unfold splitItems
    simpa using h items hmiss [] []
  intro items'
  induction items' with
  | nil => intro _ gs at0; simp
  | cons md rest ih =>
    intro hmiss' gs at0
    rw [List.foldl_cons]
    have hroute : missingRoute slug "attach_to_parent" (⟨gs, at0⟩ : GroupSplit) md =
        (⟨gs, at0 ++ [md]⟩ : GroupSplit) := by
      unfold missingRoute
      rw [if_neg (by decide), if_pos rfl]
    have hrest : ∀ md' ∈ rest, ∀ v, md'.lookup levKey = some v → v.truthy = false :=
      fun md' hmd' v hv => hmiss' md' (List.mem_cons_of_mem _ hmd') v hv
    rcases hl : md.lookup levKey with _ | v
    · simp only [hl, hroute]
      rw [ih hrest gs (at0 ++ [md])]
      simp
    · have ht := hmiss' md (List.mem_cons_self _ _) v hl
      simp only [hl, ht, Bool.false_eq_true, if_false, hroute]
      rw [ih hrest gs (at0 ++ [md])]
      simp

theorem recursive_groupAux_nil_items (cfg : List HLevel)
    (readIndex : String → Option Elem) :
    ∀ fuel level parent_path parent_id,
      recursive_groupAux cfg readIndex fuel level parent_path [] parent_id =
        some ([], []) := by
  intro fuel level parent_path parent_id
  match fuel with
  | 0 => rfl
  | fuel + 1 =>
    unfold recursive_groupAux
    by_cases hl : level ≥ cfg.length
    · rw [if_pos hl]
    · rw [if_neg hl]
      rfl

/-- C8 (amended): there is no level-0 `attach_to_parent` validation; the only
fail-fast configuration check in the source is the namespace-prefix test.
Under a configuration whose first level specifies `attach_to_parent`, records
missing the level-0 field are deferred and regrouped starting at level 1,
directly under the same parent path and identifier, with no error raised and
with artifacts written: the level-0 grouping equals the level-1 grouping. -/
theorem C8_attach_level0_regroups (l0 : HLevel) (rest : List HLevel)
    (readIndex : String → Option Elem) (parent_path parent_id : String)
    (items : List Metadata)
    (hifm : ifMissingOf l0 = "attach_to_parent")
    (hmiss : ∀ md ∈ items, ∀ v, md.lookup (levelKey l0) = some v →
      v.truthy = false) :
    recursive_group (l0 :: rest) readIndex 0 parent_path items parent_id =
      recursive_group (l0 :: rest) readIndex 1 parent_path items parent_id := by
  unfold recursive_group
  have hlen : (l0 :: rest).length - 0 = rest.length + 1 := by simp
  have hlen1 : (l0 :: rest).length - 1 = rest.length := by simp
  rw [hlen, hlen1]
  generalize hR : recursive_groupAux (l0 :: rest) readIndex rest.length 1
    parent_path items parent_id = R
  unfold recursive_groupAux
  have hnotge : ¬ (0 ≥ (l0 :: rest).length) := by simp
  rw [if_neg hnotge]
  have hget : (l0 :: rest).getD 0 defaultHLevel = l0 := rfl
  simp only [hget, hifm, splitItems_all_missing_attach _ _ items hmiss,
    List.foldl_nil, Nat.zero_add]
  rw [hR]
  rcases hitems : items with _ | ⟨md, items'⟩
  · rw [hitems] at hR
    rw [recursive_groupAux_nil_items] at hR
    simp [← hR]
  · rcases R with _ | ⟨am, ae⟩ <;> simp

/-- C8 witness: the amended theorem applied to a concrete two-level
configuration whose level 0 is `attach_to_parent` and one record missing the
level-0 field. -/
theorem C8_attach_level0_regroups_witness :
    recursive_group
      [⟨"ns:corpus", "Corpus", "corpora", some "attach_to_parent"⟩,
       ⟨"ns:work", "Work", "works", none⟩] (fun _ => none) 0 "catalog"
      [[("workTitle", MetaVal.str "Opus")]] "" =
    recursive_group
      [⟨"ns:corpus", "Corpus", "corpora", some "attach_to_parent"⟩,
       ⟨"ns:work", "Work", "works", none⟩] (fun _ => none) 1 "catalog"
      [[("workTitle", MetaVal.str "Opus")]] "" :=
  C8_attach_level0_regroups _ _ _ _ _ _ (by decide)
    (by
      intro md hmd v hv
      simp only [List.mem_singleton] at hmd
      subst hmd
      simp [levelKey, splitOnChar, splitOnCharAux, List.lookup] at hv)

/-- C8 counterexample: a configuration whose first hierarchy level specifies
`attach_to_parent` passes the only fail-fast check (the namespace test) and
the build proceeds to group records and write artifacts — a record missing
the level-0 field is regrouped at level 1 under the catalog root and its
resource file is written, with no error raised. -/
theorem C8_counterexample_attach_level0_proceeds :
    validateNamespaces
      [⟨"ns:corpus", "Corpus", "corpora", some "attach_to_parent"⟩,
       ⟨"ns:work", "Work", "works", none⟩] [("ns", "http://example.com/ns")]
      = Except.ok () ∧
    recursive_group
      [⟨"ns:corpus", "Corpus", "corpora", some "attach_to_parent"⟩,
       ⟨"ns:work", "Work", "works", none⟩] (fun _ => none) 0 "catalog"
      [[("workTitle", MetaVal.str "Opus")]] ""
      = some ([refElem "works/opus.xml"],
          [ArtEvent.writeResource "catalog/works/opus.xml"]) := by
  constructor
  · rfl
  · rfl

/-! ## The build pass (`main`)

Source: `tests/generate_collections.py` lines 95-107 (`load_state`,
`save_state`) and 446-660 (`main`).  The pass is modelled as a pure function
from its inputs — configuration hash, persisted state, TEI directory listing
— to the list of filesystem events it performs and an optional uncaught
exception.  The collaborator helpers that only touch catalog artifacts
(`delete_generated_files_by_path`, `delete_generated_files`,
`recursive_group_tracked`) are abstracted as parameters producing `ArtEvent`s:
none of them contains a `save_state` call, which the `ArtEvent` type makes
structural.
-/

/-- One entry of the persisted `build_state.json` `files` map (also the shape
of the in-memory `current_files` entries). -/
structure FileEntry where
  mtime : Int
  hierarchy : List (String × String)
  output_filepath : Option String
deriving DecidableEq

/-- The persisted `build_state.json`. -/
structure BuildState where
  config_hash : Option String
  files : List (String × FileEntry)
deriving DecidableEq

/-- A file of the TEI directory: its name, its modification time (stable for
the duration of one pass), and the result of `extract_metadata` on it
(`Except.error` when extraction raises). -/
structure SrcFile where
  name : String
  mtime : Int
  meta : Except String Metadata

/-- A filesystem event of the build pass: an artifact event, or one of the two
steps of `save_state` — `open(STATE_PATH, "w")` truncates the state file in
place before `json.dump` writes the new content. -/
inductive FsEvent where
  | art (e : ArtEvent)
  | truncateState
  | writeState (s : BuildState)
deriving DecidableEq

/-- Whether an event is a completed state write. -/
def FsEvent.isStateWrite : FsEvent → Bool
  | .writeState _ => true
  | _ => false

/-- The content of the state file on disk. -/
inductive StateFile where
  | missing
  | truncated
  | valid (s : BuildState)
deriving DecidableEq

/-- The state file after a (possibly partial) event sequence: a crash at any
point corresponds to a prefix of the run's events. -/
def persistedAfter (init : StateFile) (evs : List FsEvent) : StateFile :=
  evs.foldl (fun st e =>
    match e with
    | FsEvent.truncateState => StateFile.truncated
    | FsEvent.writeState s => StateFile.valid s
    | FsEvent.art _ => st) init

/-- The two events of `save_state(state)` (lines 101-107): truncate, then
write the normalized state. -/
def saveStateEvents (s : BuildState) : List FsEvent :=
  [FsEvent.truncateState, FsEvent.writeState s]

/-- The classification loop's accumulated state (`current_files`, `added`,
`modified`). -/
structure ClassState where
  current_files : List (String × FileEntry)
  added : List (String × Metadata)
  modified : List (String × Metadata)

/-- The classification loop of `main` (lines 463-488): filter the listing to
`WORK_*.xml`, extract metadata (an extraction exception propagates), and
classify each record as added / hierarchy-modified / content-modified /
unchanged against the previous state. -/
def classifyFold (cfg : List HLevel) (previous_files : List (String × FileEntry))
    (process_all : Bool) (teiRel : String) :
    List SrcFile → ClassState → Except String ClassState
  | [], st => .ok st
  | src :: rest, st =>
    if strStartsWith src.name "WORK_" && strEndsWith src.name ".xml" then
      let rel := pjoin teiRel src.name
      match src.meta with
      | .error e => .error e
      | .ok md =>
        let hierarchy := extract_hierarchy md cfg
        match previous_files.lookup rel with
        | none =>
          classifyFold cfg previous_files process_all teiRel rest
            ⟨dictInsert st.current_files rel ⟨src.mtime, hierarchy, none⟩,
             st.added ++ [(rel, md)], st.modified⟩
        | some prev =>
          if process_all then
            classifyFold cfg previous_files process_all teiRel rest
              ⟨dictInsert st.current_files rel ⟨src.mtime, hierarchy, none⟩,
               st.added ++ [(rel, md)], st.modified⟩
          else if !dictEq prev.hierarchy hierarchy then
            classifyFold cfg previous_files process_all teiRel rest
              ⟨dictInsert st.current_files rel ⟨src.mtime, hierarchy, none⟩,
               st.added, st.modified ++ [(rel, md)]⟩
          else if prev.mtime ≠ src.mtime then
            classifyFold cfg previous_files process_all teiRel rest
              ⟨dictInsert st.current_files rel ⟨src.mtime, hierarchy, none⟩,
               st.added, st.modified ++ [(rel, md)]⟩
          else
            classifyFold cfg previous_files process_all teiRel rest
              ⟨dictInsert st.current_files rel
                ⟨src.mtime, hierarchy, prev.output_filepath⟩,
               st.added, st.modified⟩
    else classifyFold cfg previous_files process_all teiRel rest st

/-- Update one `current_files` entry in place (`current_files[rel]["mtime"] =
…; current_files[rel]["output_filepath"] = …`). -/
def setMtimeOut (cur : List (String × FileEntry)) (rel : String) (m : Int)
    (op : Option String) : List (String × FileEntry) :=
  cur.map (fun p =>
    if p.1 = rel then (p.1, { p.2 with mtime := m, output_filepath := op }) else p)

/-- The in-place update loop of `main` (lines 505-527) over the modified
records whose hierarchy is unchanged: rewrite the leaf artifact at its
previous output path and refresh the `current_files` entry.  The loop
variable `tei_abs_path` is only bound inside the `if output_path:` block, so
a record without an output path reads a stale binding (`lastTei`) or raises
`NameError` when there is none.  `midStep` is one iteration of the loop body,
returning the updated `current_files`, stale binding, save flag and events. -/
def midStep (cfg : List HLevel) (previous_files : List (String × FileEntry))
    (rel : String) (md : Metadata) (cur : List (String × FileEntry))
    (lastTei : Option Int) (flag : Bool) (evs : List FsEvent) :
    Except String
      (List (String × FileEntry) × Option Int × Bool × List FsEvent) :=
  match previous_files.lookup rel with
  | none => .ok (cur, lastTei, flag, evs)
  | some prev =>
    if dictEq prev.hierarchy (extract_hierarchy md cfg) then
      match prev.output_filepath with
      | some op =>
        let ownM := match cur.lookup rel with
          | some e => e.mtime
          | none => 0
        .ok (setMtimeOut cur rel ownM (some op), some ownM, true,
          evs ++ [FsEvent.art (ArtEvent.writeResource op)])
      | none =>
        match lastTei with
        | none => .error "NameError: tei_abs_path"
        | some sm => .ok (setMtimeOut cur rel sm none, some sm, true, evs)
    else .ok (cur, lastTei, flag, evs)

def midLoop (cfg : List HLevel) (previous_files : List (String × FileEntry)) :
    List (String × Metadata) → List (String × FileEntry) → Option Int → Bool →
    List FsEvent →
    Except String (List (String × FileEntry) × Bool × List FsEvent)
  | [], cur, _, flag, evs => .ok (cur, flag, evs)
  | (rel, md) :: rest, cur, lastTei, flag, evs =>
    match midStep cfg previous_files rel md cur lastTei flag evs with
    | .error e => .error e
    | .ok (cur2, lastTei2, flag2, evs2) =>
      midLoop cfg previous_files rest cur2 lastTei2 flag2 evs2

/-- `prev_entry.get("hierarchy") != extract_hierarchy(res, config)`: the test
selecting the records regenerated through the grouping engine. -/
def hierDiffers (prev : Option FileEntry) (h : List (String × String)) : Bool :=
  match prev with
  | none => true
  | some e => !dictEq e.hierarchy h

/-- `current_files[rel]["output_filepath"] = output_paths_by_rel[rel]` applied
over `current_files` (lines 651-653). -/
def applyOutputs (cur : List (String × FileEntry))
    (outs : List (String × String)) : List (String × FileEntry) :=
  cur.map (fun p =>
    match outs.lookup p.1 with
    | some op => (p.1, { p.2 with output_filepath := some op })
    | none => p)

/-- The regeneration loop over modified records (lines 552-570): a record with
a previous entry triggers either a full catalog wipe (changed level 0) or a
partial deletion plus enrollment for regeneration. -/
def regenModLoop (cfg : List HLevel) (previous_files : List (String × FileEntry))
    (catalogDir : String) (delGenFiles : List (String × String) → List ArtEvent)
    (modified : List (String × Metadata))
    (resources0 : List (String × Metadata)) :
    List FsEvent × List (String × Metadata) :=
  modified.foldl (fun acc p =>
    match previous_files.lookup p.1 with
    | none => acc
    | some prev =>
      let lvl := detect_changed_level cfg prev.hierarchy (extract_hierarchy p.2 cfg)
      if lvl = 0 then
        (acc.1 ++ [FsEvent.art (ArtEvent.deleteTree catalogDir)], acc.2)
      else
        (acc.1 ++ (delGenFiles prev.hierarchy).map FsEvent.art, acc.2 ++ [p]))
    ([], resources0)

/-- The condition under which the mid-pass `save_state` happens
(`resource_hierarchy_unchanged`): some modified record has a previous entry
with an unchanged hierarchy. -/
def midSaveCond (cfg : List HLevel) (previous_files : List (String × FileEntry))
    (modified : List (String × Metadata)) : Bool :=
  modified.any (fun p =>
    match previous_files.lookup p.1 with
    | some prev => dictEq prev.hierarchy (extract_hierarchy p.2 cfg)
    | none => false)

/-- `main()` from `generate_collections.py` lines 446-660.  Inputs: the
hierarchy configuration, the TEI directory path relative to the base
directory, the catalog directory, the current configuration hash, the
persisted state file content, whether the catalog directory exists, and the
TEI listing; `delByPath`, `delGenFiles` and `regenF` are the artifact-only
collaborators (deletion by recorded output path, deletion of an old hierarchy
subtree, and `recursive_group_tracked` returning its writes, the collected
`output_paths_by_rel`, and whether it produced root members).  Returns the
events performed and the uncaught exception, if any. -/
def mainModel (cfg : List HLevel) (teiRel catalogDir current_hash : String)
    (stored : Option BuildState) (catalogIsDir : Bool) (listing : List SrcFile)
    (delByPath : String → List ArtEvent)
    (delGenFiles : List (String × String) → List ArtEvent)
    (regenF : List (String × Metadata) →
      List ArtEvent × List (String × String) × Bool) :
    List FsEvent × Option String :=
  let state0 := stored.getD ⟨none, []⟩
  let process_all := state0.config_hash ≠ some current_hash
  let ev0 := if process_all && catalogIsDir then
    [FsEvent.art (ArtEvent.deleteTree catalogDir)] else []
  let previous_files := if process_all then [] else state0.files
  match classifyFold cfg previous_files process_all teiRel listing ⟨[], [], []⟩ with
  | .error e => (ev0, some e)
  | .ok st =>
    let deleted := if process_all then [] else
      (previous_files.map Prod.fst).filter
        (fun p => (st.current_files.lookup p).isNone)
    let delEvents := deleted.flatMap (fun rel =>
      match previous_files.lookup rel with
      | some e =>
        match e.output_filepath with
        | some op => (delByPath op).map FsEvent.art
        | none => []
      | none => [])
    match midLoop cfg previous_files st.modified st.current_files none false [] with
    | .error e => (ev0 ++ delEvents, some e)
    | .ok (cur1, flag, midEvents) =>
      let midSave := if flag then
        saveStateEvents ⟨some current_hash, cur1⟩ else []
      let resources := (st.added ++ st.modified).filter (fun p =>
        hierDiffers (previous_files.lookup p.1) (extract_hierarchy p.2 cfg))
      if resources ≠ [] || deleted ≠ [] || process_all then
        let rm := regenModLoop cfg previous_files catalogDir delGenFiles
          st.modified resources
        let r := regenF rm.2
        let rootIndex := if r.2.2 then
          [FsEvent.art (ArtEvent.writeIndex (pjoin catalogDir "index.xml"))] else []
        let cur2 := applyOutputs cur1 r.2.1
        (ev0 ++ delEvents ++ midEvents ++ midSave ++ rm.1 ++
          (r.1.map FsEvent.art) ++ rootIndex ++
          saveStateEvents ⟨some current_hash, cur2⟩, none)
      else (ev0 ++ delEvents ++ midEvents ++ midSave, none)

theorem lookup_none_iff {β : Type} (k : String) :
    ∀ m : List (String × β), m.lookup k = none ↔ k ∉ m.map Prod.fst := by
  intro m
  induction m with
  | nil => simp
  | cons a m ih =>
    rcases a with ⟨x, y⟩
    rw [lookupCons]
    by_cases h : k = x
    · subst h; simp
    · simp [h, ih]

theorem dictInsert_keys_nodup {β : Type} (m : List (String × β)) (k : String)
    (v : β) (h : (m.map Prod.fst).Nodup) :
    ((dictInsert m k v).map Prod.fst).Nodup := by
  unfold dictInsert
  by_cases hs : (m.lookup k).isSome
  · rw [if_pos hs]
    have heq : (m.map (fun p => if p.1 = k then (k, v) else p)).map Prod.fst =
        m.map Prod.fst := by
      rw [List.map_map]
      apply List.map_congr_left
      intro p _
      by_cases hpk : p.1 = k <;> simp [hpk]
    rw [heq]
    exact h
  · rw [if_neg hs]
    rw [List.map_append]
    apply List.Nodup.append h (by simp)
    intro a ha
    simp only [List.map_cons, List.map_nil, List.mem_singleton]
    intro hak
    subst hak
    have : m.lookup a = none := by
      rcases hcase : m.lookup a with _ | w
      · rfl
      · rw [hcase] at hs; simp at hs
    exact (lookup_none_iff a m).mp this ha

theorem lookup_of_mem_nodup {β : Type} (k : String) (v : β) :
    ∀ m : List (String × β), (m.map Prod.fst).Nodup → (k, v) ∈ m →
      m.lookup k = some v := by
  intro m
  induction m with
  | nil => simp
  | cons a m ih =>
    rcases a with ⟨x, y⟩
    intro hnd hmem
    rw [lookupCons]
    rcases List.mem_cons.mp hmem with heq | hmem'
    · rw [Prod.mk.injEq] at heq
      rw [if_pos heq.1, heq.2]
    · by_cases hk : k = x
      · exfalso
        subst hk
        have hk2 : k ∈ m.map Prod.fst :=
          List.mem_map.mpr ⟨(k, v), hmem', rfl⟩
        simp only [List.map_cons, List.nodup_cons] at hnd
        exact hnd.1 hk2
      · rw [if_neg hk]
        exact ih (by simpa using hnd.of_cons) hmem'

theorem dictEq_refl_of_nodup (m : List (String × String))
    (h : (m.map Prod.fst).Nodup) : dictEq m m = true := by
  unfold dictEq
  have hall : m.all (fun p => m.lookup p.1 = some p.2) = true := by
    rw [List.all_eq_true]
    intro p hp
    have := lookup_of_mem_nodup p.1 p.2 m h (by simpa using hp)
    simpa using this
  rw [hall]
  rfl

theorem extract_hierarchy_keys_nodup (md : Metadata) (levels : List HLevel) :
    ((extract_hierarchy md levels).map Prod.fst).Nodup := by
  unfold extract_hierarchy
  suffices h : ∀ acc : List (String × String), (acc.map Prod.fst).Nodup →
      ((levels.foldl (fun h level =>
        let key := levelKey level
        match md.lookup key with
        | some (MetaVal.dict m) =>
          dictInsert h key (clean_id_with_strip (dGetD m "en" ""))
        | some (MetaVal.str s) =>
          if s ≠ "" then dictInsert h key (clean_id_with_strip s) else h
        | none => h) acc).map Prod.fst).Nodup by
    exact h [] (by simp)
  induction levels with
  | nil => intro acc hacc; simpa using hacc
  | cons level rest ih =>
    intro acc hacc
    rw [List.foldl_cons]
    rw [hierStep_eq md acc level]
    apply ih
    rcases hs : hierSlug md (levelKey level) with _ | v
    · exact hacc
    · exact dictInsert_keys_nodup acc (levelKey level) v hacc

theorem dictEq_extract_refl (md : Metadata) (cfg : List HLevel) :
    dictEq (extract_hierarchy md cfg) (extract_hierarchy md cfg) = true :=
  dictEq_refl_of_nodup _ (extract_hierarchy_keys_nodup md cfg)

theorem dictInsert_lookup_isSome {β : Type} (m : List (String × β))
    (k : String) (v : β) (k' : String) (h : (m.lookup k').isSome ∨ k' = k) :
    ((dictInsert m k v).lookup k').isSome := by
  by_cases hk : k' = k
  · subst hk
    rw [lookup_dictInsert_self]
    rfl
  · rcases h with h | h
    · rw [lookup_dictInsert_ne m k v k' hk]
      exact h
    · exact absurd h hk

theorem classifyFold_all_unchanged (cfg : List HLevel)
    (prevF : List (String × FileEntry)) (teiRel : String) :
    ∀ (srcs : List SrcFile) (st0 : ClassState),
      (∀ src ∈ srcs,
        (strStartsWith src.name "WORK_" && strEndsWith src.name ".xml") = true →
        ∃ md e, src.meta = .ok md ∧
          prevF.lookup (pjoin teiRel src.name) = some e ∧
          e.mtime = src.mtime ∧ e.hierarchy = extract_hierarchy md cfg) →
      ∃ cur, classifyFold cfg prevF false teiRel srcs st0 =
          .ok ⟨cur, st0.added, st0.modified⟩ ∧
        (∀ rel, (st0.current_files.lookup rel).isSome → (cur.lookup rel).isSome) ∧
        (∀ src ∈ srcs,
          (strStartsWith src.name "WORK_" && strEndsWith src.name ".xml") = true →
          (cur.lookup (pjoin teiRel src.name)).isSome) := by
  intro srcs
  induction srcs with
  | nil =>
    intro st0 _
    exact ⟨st0.current_files, rfl, fun _ h => h, by simp⟩
  | cons src rest ih =>
    intro st0 hsrcs
    by_cases hfilt : (strStartsWith src.name "WORK_" && strEndsWith src.name ".xml") = true
    · obtain ⟨md, e, hmeta, hprev, hmtime, hhier⟩ :=
        hsrcs src (List.mem_cons_self _ _) hfilt
      have hdq : dictEq e.hierarchy (extract_hierarchy md cfg) = true := by
        rw [hhier]
        exact dictEq_extract_refl md cfg
      have hstep : classifyFold cfg prevF false teiRel (src :: rest) st0 =
          classifyFold cfg prevF false teiRel rest
            ⟨dictInsert st0.current_files (pjoin teiRel src.name)
              ⟨src.mtime, extract_hierarchy md cfg, e.output_filepath⟩,
             st0.added, st0.modified⟩ := by
        conv_lhs => unfold classifyFold
        rw [if_pos hfilt]
        simp only [hmeta, hprev]
        rw [if_neg (by simp), if_neg (by simp [hdq]), if_neg (by simp [hmtime])]
      obtain ⟨cur, hrec, hpres, hsrcs'⟩ := ih
        ⟨dictInsert st0.current_files (pjoin teiRel src.name)
          ⟨src.mtime, extract_hierarchy md cfg, e.output_filepath⟩,
         st0.added, st0.modified⟩
        (fun s hs hf => hsrcs s (List.mem_cons_of_mem _ hs) hf)
      refine ⟨cur, by rw [hstep]; exact hrec, ?_, ?_⟩
      · intro rel hrel
        apply hpres
        exact dictInsert_lookup_isSome _ _ _ _ (Or.inl hrel)
      · intro s hs hf
        rcases List.mem_cons.mp hs with rfl | hs'
        · apply hpres
          exact dictInsert_lookup_isSome _ _ _ _ (Or.inr rfl)
        · exact hsrcs' s hs' hf
    · have hstep : classifyFold cfg prevF false teiRel (src :: rest) st0 =
          classifyFold cfg prevF false teiRel rest st0 := by
        conv_lhs => unfold classifyFold
        rw [if_neg hfilt]
      obtain ⟨cur, hrec, hpres, hsrcs'⟩ := ih st0
        (fun s hs hf => hsrcs s (List.mem_cons_of_mem _ hs) hf)
      refine ⟨cur, by rw [hstep]; exact hrec, hpres, ?_⟩
      intro s hs hf
      rcases List.mem_cons.mp hs with rfl | hs'
      · exact absurd hf hfilt
      · exact hsrcs' s hs' hf

/-- C1: a second build pass over the same inputs — equal configuration hash,
the same set of filtered source records with unchanged modification times and
unchanged extracted hierarchies, all present in the persisted state — performs
zero filesystem events (no resource, index, catalog or state file is written
or deleted) and leaves the persisted BuildState file exactly as it was. -/
theorem C1_second_run_idempotent (cfg : List HLevel)
    (teiRel catalogDir current_hash : String) (S : BuildState)
    (catalogIsDir : Bool) (listing : List SrcFile)
    (delByPath : String → List ArtEvent)
    (delGenFiles : List (String × String) → List ArtEvent)
    (regenF : List (String × Metadata) →
      List ArtEvent × List (String × String) × Bool)
    (hhash : S.config_hash = some current_hash)
    (hrecords : ∀ src ∈ listing,
      (strStartsWith src.name "WORK_" && strEndsWith src.name ".xml") = true →
      ∃ md e, src.meta = .ok md ∧
        S.files.lookup (pjoin teiRel src.name) = some e ∧
        e.mtime = src.mtime ∧ e.hierarchy = extract_hierarchy md cfg)
    (hcover : ∀ rel ∈ S.files.map Prod.fst, ∃ src ∈ listing,
      (strStartsWith src.name "WORK_" && strEndsWith src.name ".xml") = true ∧
      pjoin teiRel src.name = rel) :
    mainModel cfg teiRel catalogDir current_hash (some S) catalogIsDir listing
        delByPath delGenFiles regenF = ([], none) ∧
    persistedAfter (StateFile.valid S)
      (mainModel cfg teiRel catalogDir current_hash (some S) catalogIsDir
        listing delByPath delGenFiles regenF).1 = StateFile.valid S := by
  obtain ⟨cur, hclass, hpres, hsrcs⟩ :=
    classifyFold_all_unchanged cfg S.files teiRel listing ⟨[], [], []⟩ hrecords
  have hmain : mainModel cfg teiRel catalogDir current_hash (some S)
      catalogIsDir listing delByPath delGenFiles regenF = ([], none) := by
    unfold mainModel
    have hpd : (S.config_hash ≠ some current_hash) = False := by simp [hhash]
    have hdel : (S.files.map Prod.fst).filter
        (fun p => (cur.lookup p).isNone) = [] := by
      rw [List.filter_eq_nil_iff]
      intro rel hrel
      obtain ⟨src, hsrc, hf, hrelrel⟩ := hcover rel hrel
      have hs := hsrcs src hsrc hf
      rw [hrelrel] at hs
      rcases hcase : cur.lookup rel with _ | w
      · rw [hcase] at hs; simp at hs
      · simp [hcase]
    simp [hpd, hclass, midLoop, hdel]
  exact ⟨hmain, by rw [hmain]; rfl⟩

/-- C1 witness: the idempotence theorem applied to a concrete one-record
catalog state whose stored entry matches the current record exactly. -/
theorem C1_second_run_idempotent_witness :
    mainModel [⟨"ns:author", "Author", "authors", none⟩] "tei" "catalog" "h"
      (some ⟨some "h", [("tei/WORK_a.xml",
        ⟨5, [("author", "ann")], some "catalog/authors/opus.xml"⟩)]⟩) true
      [⟨"WORK_a.xml", 5, Except.ok
        [("author", MetaVal.str "Ann"), ("workTitle", MetaVal.str "Opus")]⟩]
      (fun _ => []) (fun _ => []) (fun _ => ([], [], false)) = ([], none) :=
  (C1_second_run_idempotent _ _ _ _ _ _ _ _ _ _ rfl
    (by
      intro src hsrc hf
      simp only [List.mem_singleton] at hsrc
      subst hsrc
      refine ⟨[("author", MetaVal.str "Ann"), ("workTitle", MetaVal.str "Opus")],
        ⟨5, [("author", "ann")], some "catalog/authors/opus.xml"⟩, rfl, ?_, rfl, ?_⟩
      · decide
      · decide)
    (by
      intro rel hrel
      simp only [List.map_cons, List.map_nil, List.mem_singleton] at hrel
      subst hrel
      exact ⟨⟨"WORK_a.xml", 5, Except.ok
        [("author", MetaVal.str "Ann"), ("workTitle", MetaVal.str "Opus")]⟩,
        List.mem_singleton.mpr rfl, by decide, rfl⟩)).1
theorem classifyFold_cons_ok_step (cfg : List HLevel)
    (prevF : List (String × FileEntry)) (pa : Bool) (teiRel : String)
    (s : SrcFile) (rest : List SrcFile) (st : ClassState) (md : Metadata)
    (hs : (strStartsWith s.name "WORK_" && strEndsWith s.name ".xml") = true)
    (hm : s.meta = .ok md) :
    ∃ st2, classifyFold cfg prevF pa teiRel (s :: rest) st =
      classifyFold cfg prevF pa teiRel rest st2 := by
  rcases hl : prevF.lookup (pjoin teiRel s.name) with _ | pe
  · refine ⟨⟨dictInsert st.current_files (pjoin teiRel s.name)
        ⟨s.mtime, extract_hierarchy md cfg, none⟩,
      st.added ++ [(pjoin teiRel s.name, md)], st.modified⟩, ?_⟩
    conv_lhs => unfold classifyFold
    rw [if_pos hs]
    simp only [hm, hl]
  · by_cases hpa : pa = true
    · refine ⟨⟨dictInsert st.current_files (pjoin teiRel s.name)
          ⟨s.mtime, extract_hierarchy md cfg, none⟩,
        st.added ++ [(pjoin teiRel s.name, md)], st.modified⟩, ?_⟩
      conv_lhs => unfold classifyFold
      rw [if_pos hs]
      simp only [hm, hl]
      rw [if_pos hpa]
    · by_cases hd : dictEq pe.hierarchy (extract_hierarchy md cfg) = true
      · by_cases hmt : pe.mtime = s.mtime
        · refine ⟨⟨dictInsert st.current_files (pjoin teiRel s.name)
              ⟨s.mtime, extract_hierarchy md cfg, pe.output_filepath⟩,
            st.added, st.modified⟩, ?_⟩
          conv_lhs => unfold classifyFold
          rw [if_pos hs]
          simp only [hm, hl]
          rw [if_neg hpa, if_neg (by simp [hd]), if_neg (by simp [hmt])]
        · refine ⟨⟨dictInsert st.current_files (pjoin teiRel s.name)
              ⟨s.mtime, extract_hierarchy md cfg, none⟩,
            st.added, st.modified ++ [(pjoin teiRel s.name, md)]⟩, ?_⟩
          conv_lhs => unfold classifyFold
          rw [if_pos hs]
          simp only [hm, hl]
          rw [if_neg hpa, if_neg (by simp [hd]), if_pos (by simp [hmt])]
      · refine ⟨⟨dictInsert st.current_files (pjoin teiRel s.name)
            ⟨s.mtime, extract_hierarchy md cfg, none⟩,
          st.added, st.modified ++ [(pjoin teiRel s.name, md)]⟩, ?_⟩
        conv_lhs => unfold classifyFold
        rw [if_pos hs]
        simp only [hm, hl]
        rw [if_neg hpa, if_pos (by simp [hd])]

theorem classifyFold_error_propagates (cfg : List HLevel)
    (prevF : List (String × FileEntry)) (pa : Bool) (teiRel : String)
    (e : String) :
    ∀ (srcs : List SrcFile) (st : ClassState) (src : SrcFile), src ∈ srcs →
      (strStartsWith src.name "WORK_" && strEndsWith src.name ".xml") = true →
      src.meta = .error e →
      ∃ msg, classifyFold cfg prevF pa teiRel srcs st = .error msg := by
  intro srcs
  induction srcs with
  | nil => intro st src h; simp at h
  | cons s rest ih =>
    intro st src hmem hfil herr
    rcases List.mem_cons.mp hmem with heq | hmem'
    · subst heq
      refine ⟨e, ?_⟩
      conv_lhs => unfold classifyFold
      rw [if_pos hfil]
      simp only [herr]
    · by_cases hsf : (strStartsWith s.name "WORK_" && strEndsWith s.name ".xml") = true
      · rcases hm : s.meta with e2 | md
        · refine ⟨e2, ?_⟩
          conv_lhs => unfold classifyFold
          rw [if_pos hsf]
          simp only [hm]
        · obtain ⟨st2, hstep⟩ :=
            classifyFold_cons_ok_step cfg prevF pa teiRel s rest st md hsf hm
          obtain ⟨msg, hmsg⟩ := ih st2 src hmem' hfil herr
          exact ⟨msg, by rw [hstep]; exact hmsg⟩
      · have hstep : classifyFold cfg prevF pa teiRel (s :: rest) st =
            classifyFold cfg prevF pa teiRel rest st := by
          conv_lhs => unfold classifyFold
          rw [if_neg hsf]
        obtain ⟨msg, hmsg⟩ := ih st src hmem' hfil herr
        exact ⟨msg, by rw [hstep]; exact hmsg⟩
/-- C7: `extract_metadata` is called inside the classification loop of `main`
with no `try`/`except` around it, so when extraction raises for a single
filtered record the exception propagates: the run aborts before the deletion
sweep, the regeneration and both `save_state` calls, performing no filesystem
event at all (with an up-to-date configuration hash) and leaving the state
file untouched — the remaining records are not processed, contradicting the
claimed single-record containment. -/
theorem C7_extraction_failure_aborts (cfg : List HLevel)
    (teiRel catalogDir current_hash : String) (S : BuildState)
    (catalogIsDir : Bool) (listing : List SrcFile)
    (delByPath : String → List ArtEvent)
    (delGenFiles : List (String × String) → List ArtEvent)
    (regenF : List (String × Metadata) →
      List ArtEvent × List (String × String) × Bool)
    (hhash : S.config_hash = some current_hash)
    (src : SrcFile) (hsrc : src ∈ listing)
    (hf : (strStartsWith src.name "WORK_" && strEndsWith src.name ".xml") = true)
    (e : String) (herr : src.meta = .error e) :
    ∃ msg, mainModel cfg teiRel catalogDir current_hash (some S) catalogIsDir
        listing delByPath delGenFiles regenF = ([], some msg) := by
  obtain ⟨msg, hmsg⟩ := classifyFold_error_propagates cfg S.files
    false teiRel e listing ⟨[], [], []⟩ src hsrc hf herr
  refine ⟨msg, ?_⟩
  unfold mainModel
  have hpd : (S.config_hash ≠ some current_hash) = False := by simp [hhash]
  simp [hpd, hmsg]

/-- C7 counterexample: a two-record listing whose first record fails
extraction — the run returns the exception with zero events, so the second
(healthy) record is never classified, no artifact is written and no state is
saved; the failure is not contained to the failing record. -/
theorem C7_counterexample_abort_on_single_failure :
    mainModel [⟨"ns:author", "Author", "authors", none⟩] "tei" "catalog" "h"
      (some ⟨some "h", []⟩) true
      [⟨"WORK_bad.xml", 3, Except.error "XMLSyntaxError"⟩,
       ⟨"WORK_good.xml", 5, Except.ok [("workTitle", MetaVal.str "Opus")]⟩]
      (fun _ => []) (fun _ => []) (fun _ => ([], [], false))
      = ([], some "XMLSyntaxError") := by decide

/-- C7 witness: the abort theorem applied to a concrete one-record listing
whose extraction fails. -/
theorem C7_extraction_failure_aborts_witness :
    ∃ msg, mainModel [] "tei" "catalog" "cfg1"
      (some ⟨some "cfg1", []⟩) false
      [⟨"WORK_x.xml", 7, Except.error "ParseError"⟩]
      (fun _ => []) (fun _ => []) (fun _ => ([], [], false))
      = ([], some msg) :=
  C7_extraction_failure_aborts [] "tei" "catalog" "cfg1" ⟨some "cfg1", []⟩
    false [⟨"WORK_x.xml", 7, Except.error "ParseError"⟩]
    (fun _ => []) (fun _ => []) (fun _ => ([], [], false)) rfl
    ⟨"WORK_x.xml", 7, Except.error "ParseError"⟩ (List.mem_singleton.mpr rfl)
    (by decide) "ParseError" rfl
/-- Whether an event touches only catalog artifacts (not the state file). -/
def FsEvent.isArt : FsEvent → Bool
  | .art _ => true
  | _ => false

/-- The state-file events of a run: the truncations and writes of
`build_state.json`, in order. -/
def stateEvents (evs : List FsEvent) : List FsEvent :=
  evs.filter (fun e => ! e.isArt)

theorem stateEvents_append (a b : List FsEvent) :
    stateEvents (a ++ b) = stateEvents a ++ stateEvents b :=
  List.filter_append _ _

theorem stateEvents_of_art (l : List FsEvent)
    (h : ∀ e ∈ l, FsEvent.isArt e = true) : stateEvents l = [] := by
  unfold stateEvents
  rw [List.filter_eq_nil_iff]
  intro e he
  simp [h e he]

theorem stateEvents_map_art (l : List ArtEvent) :
    stateEvents (l.map FsEvent.art) = [] :=
  stateEvents_of_art _ (by
    intro e he
    obtain ⟨a, -, rfl⟩ := List.mem_map.mp he
    rfl)

theorem stateEvents_save (s : BuildState) :
    stateEvents (saveStateEvents s) = saveStateEvents s := rfl

theorem stateEvents_ite_art (c : Prop) [Decidable c] (a : ArtEvent) :
    stateEvents (if c then [FsEvent.art a] else []) = [] := by
  split <;> rfl

theorem delEvents_art (prevF : List (String × FileEntry))
    (delByPath : String → List ArtEvent) (deleted : List String) :
    ∀ ev ∈ deleted.flatMap (fun rel =>
      match prevF.lookup rel with
      | some e =>
        match e.output_filepath with
        | some op => (delByPath op).map FsEvent.art
        | none => []
      | none => []), FsEvent.isArt ev = true := by
  intro ev hev
  obtain ⟨rel, -, hef⟩ := List.mem_flatMap.mp hev
  rcases hp : prevF.lookup rel with _ | en
  · rw [hp] at hef; simp at hef
  · rw [hp] at hef
    simp only [] at hef
    rcases ho : en.output_filepath with _ | op
    · rw [ho] at hef; simp at hef
    · rw [ho] at hef
      obtain ⟨a, -, rfl⟩ := List.mem_map.mp hef
      rfl
theorem midStep_events_art (cfg : List HLevel)
    (prevF : List (String × FileEntry)) (rel : String) (md : Metadata)
    (cur : List (String × FileEntry)) (lastTei : Option Int) (flag : Bool)
    (evs : List FsEvent) (h0 : ∀ e ∈ evs, FsEvent.isArt e = true)
    (cur2 : List (String × FileEntry)) (lastTei2 : Option Int) (flag2 : Bool)
    (evs2 : List FsEvent)
    (h : midStep cfg prevF rel md cur lastTei flag evs =
      .ok (cur2, lastTei2, flag2, evs2)) :
    ∀ e ∈ evs2, FsEvent.isArt e = true := by
  unfold midStep at h
  rcases hl : prevF.lookup rel with _ | prev
  · rw [hl] at h
    simp only [Except.ok.injEq, Prod.mk.injEq] at h
    obtain ⟨-, -, -, h4⟩ := h
    subst h4
    exact h0
  · rw [hl] at h
    simp only [] at h
    by_cases hd : dictEq prev.hierarchy (extract_hierarchy md cfg) = true
    · rw [if_pos hd] at h
      rcases ho : prev.output_filepath with _ | op
      · rw [ho] at h
        simp only [] at h
        rcases hlt : lastTei with _ | sm
        · rw [hlt] at h
          simp at h
        · rw [hlt] at h
          simp only [Except.ok.injEq, Prod.mk.injEq] at h
          obtain ⟨-, -, -, h4⟩ := h
          subst h4
          exact h0
      · rw [ho] at h
        simp only [Except.ok.injEq, Prod.mk.injEq] at h
        obtain ⟨-, -, -, h4⟩ := h
        subst h4
        intro e he
        rcases List.mem_append.mp he with h1 | h2
        · exact h0 e h1
        · simp only [List.mem_singleton] at h2
          subst h2
          rfl
    · rw [if_neg hd] at h
      simp only [Except.ok.injEq, Prod.mk.injEq] at h
      obtain ⟨-, -, -, h4⟩ := h
      subst h4
      exact h0

theorem midLoop_events_art (cfg : List HLevel)
    (prevF : List (String × FileEntry)) :
    ∀ (mods : List (String × Metadata)) (cur : List (String × FileEntry))
      (lastTei : Option Int) (flag : Bool) (evs0 : List FsEvent),
      (∀ e ∈ evs0, FsEvent.isArt e = true) →
      ∀ (cur1 : List (String × FileEntry)) (flag1 : Bool)
        (evs1 : List FsEvent),
        midLoop cfg prevF mods cur lastTei flag evs0 = .ok (cur1, flag1, evs1) →
        ∀ e ∈ evs1, FsEvent.isArt e = true := by
  intro mods
  induction mods with
  | nil =>
    intro cur lastTei flag evs0 h0 cur1 flag1 evs1 h
    rw [midLoop] at h
    simp only [Except.ok.injEq, Prod.mk.injEq] at h
    obtain ⟨-, -, h3⟩ := h
    subst h3
    exact h0
  | cons p rest ih =>
    rcases p with ⟨rel, md⟩
    intro cur lastTei flag evs0 h0 cur1 flag1 evs1 h
    rw [midLoop] at h
    rcases hs : midStep cfg prevF rel md cur lastTei flag evs0 with e | q
    · rw [hs] at h
      simp at h
    · rcases q with ⟨cur2, lastTei2, flag2, evs2⟩
      rw [hs] at h
      simp only [] at h
      exact ih cur2 lastTei2 flag2 evs2
        (midStep_events_art cfg prevF rel md cur lastTei flag evs0 h0
          cur2 lastTei2 flag2 evs2 hs) cur1 flag1 evs1 h

theorem regenModLoop_events_art (cfg : List HLevel)
    (prevF : List (String × FileEntry)) (catalogDir : String)
    (delGenFiles : List (String × String) → List ArtEvent)
    (modified : List (String × Metadata)) (res0 : List (String × Metadata)) :
    ∀ e ∈ (regenModLoop cfg prevF catalogDir delGenFiles modified res0).1,
      FsEvent.isArt e = true := by
  unfold regenModLoop
  suffices h : ∀ (mods : List (String × Metadata))
      (acc : List FsEvent × List (String × Metadata)),
      (∀ e ∈ acc.1, FsEvent.isArt e = true) →
      ∀ e ∈ (mods.foldl (fun acc p =>
        match prevF.lookup p.1 with
        | none => acc
        | some prev =>
          let lvl := detect_changed_level cfg prev.hierarchy
            (extract_hierarchy p.2 cfg)
          if lvl = 0 then
            (acc.1 ++ [FsEvent.art (ArtEvent.deleteTree catalogDir)], acc.2)
          else
            (acc.1 ++ (delGenFiles prev.hierarchy).map FsEvent.art,
              acc.2 ++ [p])) acc).1,
        FsEvent.isArt e = true by
    exact h modified ([], res0) (by simp)
  intro mods
  induction mods with
  | nil =>
    intro acc hacc
    simpa using hacc
  | cons p rest ih =>
    intro acc hacc
    rw [List.foldl_cons]
    apply ih
    rcases hl : prevF.lookup p.1 with _ | prev
    · simp only [hl]
      exact hacc
    · simp only [hl]
      by_cases hlvl : detect_changed_level cfg prev.hierarchy
          (extract_hierarchy p.2 cfg) = 0
      · rw [if_pos hlvl]
        intro e he
        rcases List.mem_append.mp he with h1 | h2
        · exact hacc e h1
        · simp only [List.mem_singleton] at h2
          subst h2
          rfl
      · rw [if_neg hlvl]
        intro e he
        rcases List.mem_append.mp he with h1 | h2
        · exact hacc e h1
        · obtain ⟨a, -, rfl⟩ := List.mem_map.mp h2
          rfl
theorem stateEvents_nil : stateEvents [] = [] := rfl

theorem stateEvents_art_cons (a : ArtEvent) (l : List FsEvent) :
    stateEvents (FsEvent.art a :: l) = stateEvents l := rfl

theorem mem_ite_art (c : Prop) [Decidable c] (a : ArtEvent) (e : FsEvent)
    (he : e ∈ (if c then [FsEvent.art a] else [])) : FsEvent.isArt e = true := by
  by_cases hc : c
  · rw [if_pos hc] at he
    simp only [List.mem_singleton] at he
    subst he
    rfl
  · rw [if_neg hc] at he
    simp at he

/-- C6: the state file is not written at most once at the end of a pass — a
pass performs up to two complete `save_state` operations (the mid-pass save
after in-place rewrites and the final save), and each operation is a
truncation of the state file immediately followed by the write: every run's
state-file event sequence is the concatenation of at most two truncate/write
pairs, so a crash between a truncation and its write leaves the file
truncated rather than at the previously persisted state. -/
theorem C6_state_commit_pairs (cfg : List HLevel)
    (teiRel catalogDir current_hash : String) (stored : Option BuildState)
    (catalogIsDir : Bool) (listing : List SrcFile)
    (delByPath : String → List ArtEvent)
    (delGenFiles : List (String × String) → List ArtEvent)
    (regenF : List (String × Metadata) →
      List ArtEvent × List (String × String) × Bool) :
    ∃ ss : List BuildState, ss.length ≤ 2 ∧
      stateEvents (mainModel cfg teiRel catalogDir current_hash stored
        catalogIsDir listing delByPath delGenFiles regenF).1 =
        ss.flatMap saveStateEvents := by
  unfold mainModel
  dsimp only []
  split
  · refine ⟨[], by simp, ?_⟩
    simp only [List.flatMap_nil]
    exact stateEvents_ite_art _ _
  · split
    · refine ⟨[], by simp, ?_⟩
      simp only [List.flatMap_nil]
      refine stateEvents_of_art _ ?_
      intro e he
      rcases List.mem_append.mp he with h1 | h2
      · exact mem_ite_art _ _ _ h1
      · exact delEvents_art _ delByPath _ e h2
    · rename_i cur1 flag midEvents hmid
      have hmidse : stateEvents midEvents = [] :=
        stateEvents_of_art _
          (midLoop_events_art cfg _ _ _ _ _ [] (by simp) _ _ _ hmid)
      repeat' split
      all_goals
        first
        | exact ⟨[_, _], by simp, by
            try simp only [stateEvents_append, stateEvents_save,
              stateEvents_map_art, stateEvents_nil, stateEvents_art_cons,
              stateEvents_ite_art, hmidse,
              stateEvents_of_art _ (delEvents_art _ delByPath _),
              stateEvents_of_art _ (regenModLoop_events_art _ _ _ _ _ _),
              List.nil_append, List.append_nil]
            try rfl
            done⟩
        | exact ⟨[_], by simp, by
            try simp only [stateEvents_append, stateEvents_save,
              stateEvents_map_art, stateEvents_nil, stateEvents_art_cons,
              stateEvents_ite_art, hmidse,
              stateEvents_of_art _ (delEvents_art _ delByPath _),
              stateEvents_of_art _ (regenModLoop_events_art _ _ _ _ _ _),
              List.nil_append, List.append_nil]
            try rfl
            done⟩
        | exact ⟨[], by simp, by
            try simp only [stateEvents_append, stateEvents_save,
              stateEvents_map_art, stateEvents_nil, stateEvents_art_cons,
              stateEvents_ite_art, hmidse,
              stateEvents_of_art _ (delEvents_art _ delByPath _),
              stateEvents_of_art _ (regenModLoop_events_art _ _ _ _ _ _),
              List.nil_append, List.append_nil]
            try rfl
            done⟩
/-- C6 counterexample: a successful pass over one in-place-rewritten record
and one new record performs two complete state writes — the mid-pass
`save_state` and the final one — and a crash between the first truncation and
its write (a two-event prefix of the run) leaves the state file truncated,
not at the previously persisted state. -/
theorem C6_counterexample_two_state_writes :
    mainModel [⟨"ns:author", "Author", "authors", none⟩] "tei" "catalog" "h"
      (some ⟨some "h", [("tei/WORK_a.xml",
        ⟨5, [("author", "ann")], some "catalog/authors/opus.xml"⟩)]⟩) true
      [⟨"WORK_a.xml", 6, Except.ok
        [("author", MetaVal.str "Ann"), ("workTitle", MetaVal.str "Opus")]⟩,
       ⟨"WORK_b.xml", 7, Except.ok
        [("author", MetaVal.str "Bob"), ("workTitle", MetaVal.str "Blog")]⟩]
      (fun _ => []) (fun _ => [])
      (fun _ => ([ArtEvent.writeResource "catalog/authors/blog.xml"],
        [("tei/WORK_b.xml", "catalog/authors/blog.xml")], true))
      = ([FsEvent.art (ArtEvent.writeResource "catalog/authors/opus.xml"),
          FsEvent.truncateState,
          FsEvent.writeState ⟨some "h",
            [("tei/WORK_a.xml",
              ⟨6, [("author", "ann")], some "catalog/authors/opus.xml"⟩),
             ("tei/WORK_b.xml", ⟨7, [("author", "bob")], none⟩)]⟩,
          FsEvent.art (ArtEvent.deleteTree "catalog"),
          FsEvent.art (ArtEvent.writeResource "catalog/authors/blog.xml"),
          FsEvent.art (ArtEvent.writeIndex "catalog/index.xml"),
          FsEvent.truncateState,
          FsEvent.writeState ⟨some "h",
            [("tei/WORK_a.xml",
              ⟨6, [("author", "ann")], some "catalog/authors/opus.xml"⟩),
             ("tei/WORK_b.xml",
              ⟨7, [("author", "bob")], some "catalog/authors/blog.xml"⟩)]⟩],
         none) ∧
    (([FsEvent.art (ArtEvent.writeResource "catalog/authors/opus.xml"),
       FsEvent.truncateState,
       FsEvent.writeState ⟨some "h",
         [("tei/WORK_a.xml",
           ⟨6, [("author", "ann")], some "catalog/authors/opus.xml"⟩),
          ("tei/WORK_b.xml", ⟨7, [("author", "bob")], none⟩)]⟩,
       FsEvent.art (ArtEvent.deleteTree "catalog"),
       FsEvent.art (ArtEvent.writeResource "catalog/authors/blog.xml"),
       FsEvent.art (ArtEvent.writeIndex "catalog/index.xml"),
       FsEvent.truncateState,
       FsEvent.writeState ⟨some "h",
         [("tei/WORK_a.xml",
           ⟨6, [("author", "ann")], some "catalog/authors/opus.xml"⟩),
          ("tei/WORK_b.xml",
           ⟨7, [("author", "bob")], some "catalog/authors/blog.xml"⟩)]⟩]
      : List FsEvent).filter FsEvent.isStateWrite).length = 2 ∧
    persistedAfter
      (StateFile.valid ⟨some "h", [("tei/WORK_a.xml",
        ⟨5, [("author", "ann")], some "catalog/authors/opus.xml"⟩)]⟩)
      ([FsEvent.art (ArtEvent.writeResource "catalog/authors/opus.xml"),
        FsEvent.truncateState] : List FsEvent)
      = StateFile.truncated := by
  refine ⟨by decide, by decide, by decide⟩
